import Mathlib

/-!
Shallow embedding, in Lean 4, of the modular-arithmetic kernel
(`src/integer.rs`) and of the standalone number-theoretic functions
(`src/nt_funcs.rs`) of the num-prime crate, together with proofs of the
specification claims about them.

Machine integers are modelled as `ℕ`; wrapping behaviour is made explicit
with `% 2 ^ w` exactly where the Rust code wraps.  Rust loops are modelled
by structural recursion on an explicit fuel argument; every call site
supplies fuel that provably suffices (the correctness lemmas carry the
fuel bound as a hypothesis), and loops whose iteration count is not
bounded by the inputs (the factorization work stack, the prime wheel walk)
return `Option` and yield `none` on fuel exhaustion, so that every `some`
result corresponds to a genuine terminating execution of the Rust loop.
-/

namespace NumPrime

/-- Fueled count of trailing zero binary digits: halve while even.  This is
the value of `trailing_zeros` on *non-zero* input (for input `0` the Rust
primitive `uN::trailing_zeros` returns the bit width `N` and
`BigUint::trailing_zeros` returns `None`; see `fac2Prim` and `fac2Big`). -/
def tzF : ℕ → ℕ → ℕ
  | 0, _ => 0
  | f + 1, a => if a % 2 = 1 ∨ a = 0 then 0 else tzF f (a / 2) + 1

/-- Trailing-zero count with sufficient fuel (`a` halvings always finish). -/
def tz (a : ℕ) : ℕ := tzF a a

/-- Model of `fac2` for the primitive widths `u8 … u128`
(`src/integer.rs:69,125`): `self.trailing_zeros()`, which on input `0`
returns the bit width `w`. -/
def fac2Prim (w a : ℕ) : ℕ := if a = 0 then w else tz a

/-- Model of `fac2` for `BigUint` (`src/integer.rs:198-202`):
`trailing_zeros` gives `None` on `0`, mapped to `0`. -/
def fac2Big (a : ℕ) : ℕ := if a = 0 then 0 else tz a

/-- Model of `addm` for the promoted widths `u8 … u64`
(`src/integer.rs:70`): the sum is formed in the double-width type, which
cannot wrap, so over `ℕ` it is the exact sum reduced mod `m`.  The `BigUint`
`addm` (`src/integer.rs:205-207`) is literally the same expression. -/
def addm (a b m : ℕ) : ℕ := (a + b) % m

/-- Model of `subm` (`src/integer.rs:71-74`): reduce both operands mod `m`
(written inline here instead of the Rust `let` bindings), then subtract
with a borrow from `m`.  The same code is used for all primitive widths
and for `BigUint`. -/
def subm (a b m : ℕ) : ℕ :=
  if b % m ≤ a % m then a % m - b % m else m - (b % m - a % m)

/-- Model of `mulm` for the promoted widths `u8 … u64`
(`src/integer.rs:75`): the product is formed in the double-width type,
which cannot wrap for operands below `2 ^ w`. -/
def mulm (a b m : ℕ) : ℕ := a * b % m

/-- Fueled model of the square-and-multiply loop of `powm`
(`src/integer.rs:80-89`): while `exp > 0`, multiply `result` by `multi`
when the low bit of `exp` is set, square `multi`, shift `exp`. -/
def powmLoopF : ℕ → ℕ → ℕ → ℕ → ℕ → ℕ
  | 0, _, _, _, result => result
  | f + 1, exp, multi, m, result =>
    if exp = 0 then result
    else
      powmLoopF f (exp / 2) (mulm multi multi m) m
        (if exp % 2 = 1 then mulm result multi m else result)

/-- Model of `powm` for the promoted widths `u8 … u64`
(`src/integer.rs:76-91`): special cases for `exp = 1` and `exp = 2`, then
the square-and-multiply loop starting from `result = 1`. -/
def powm (a e m : ℕ) : ℕ :=
  if e = 1 then a % m
  else if e = 2 then mulm a a m
  else powmLoopF (e + 1) e (a % m) m 1

/-- Model of `addm` for `u128` (`src/integer.rs:129-140`): a direct
`checked_add` (no wrap below `2 ^ 128`), and on overflow the reduce-then-
split-sum branch. -/
def addm_u128 (a b m : ℕ) : ℕ :=
  if a + b < 2 ^ 128 then (a + b) % m
  else if a % m < m - b % m then a % m + b % m
  else min (a % m) (b % m) - (m - max (a % m) (b % m))

/-- Fueled model of the shift-and-add loop of `mulm` for `u128`
(`src/integer.rs:161-168`): while `b > 0`, add `a` into `result` when the
low bit of `b` is set, double `a`, shift `b`. -/
def mulmLoopF : ℕ → ℕ → ℕ → ℕ → ℕ → ℕ
  | 0, _, _, _, result => result
  | f + 1, a, b, m, result =>
    if b = 0 then result
    else
      mulmLoopF f (addm_u128 a a m) (b / 2) m
        (if b % 2 = 1 then addm_u128 result a m else result)

/-- Model of `mulm` for `u128` (`src/integer.rs:149-170`): two
`checked_mul` fast paths, then the shift-and-add loop on the operands
reduced mod `m`. -/
def mulm_u128 (a b m : ℕ) : ℕ :=
  if a * b < 2 ^ 128 then a * b % m
  else if a % m * (b % m) < 2 ^ 128 then a % m * (b % m) % m
  else mulmLoopF (b % m + 1) (a % m) (b % m) m 0

/-- Fueled model of the square-and-multiply loop of `powm` for `u128`
(`src/integer.rs:180-186`), built on `mulm_u128`. -/
def powmLoop128F : ℕ → ℕ → ℕ → ℕ → ℕ → ℕ
  | 0, _, _, _, result => result
  | f + 1, exp, multi, m, result =>
    if exp = 0 then result
    else
      powmLoop128F f (exp / 2) (mulm_u128 multi multi m) m
        (if exp % 2 = 1 then mulm_u128 result multi m else result)

/-- Model of `powm` for `u128` (`src/integer.rs:172-188`): a special case
for `exp = 1` only, then the square-and-multiply loop. -/
def powm_u128 (a e m : ℕ) : ℕ :=
  if e = 1 then a % m
  else powmLoop128F (e + 1) e (a % m) m 1

/-- Model of `mulm` for `BigUint` (`src/integer.rs:213-224`): reduce both
operands, and when the modulus fits in a `u64` (`m.to_u64()` succeeds,
i.e. `m < 2 ^ 64`) downcast and use the `u64` path, otherwise multiply
natively. -/
def mulmBig (a b m : ℕ) : ℕ :=
  if m < 2 ^ 64 then mulm (a % m) (b % m) m else a % m * (b % m) % m

/-- Model of `BigUint::modpow` from the external num-bigint crate, used by
the `BigUint` `powm`; its documented semantics is `self ^ exponent % modulus`
(with a panic on modulus `0`, outside the `m ≥ 1` contract). -/
def modpow (a e m : ℕ) : ℕ := a ^ e % m

/-- Model of `powm` for `BigUint` (`src/integer.rs:227-229`): delegates to
`modpow`. -/
def powmBig (a e m : ℕ) : ℕ := modpow a e m

/-! ### Correctness lemmas for the kernel operations -/

theorem tzF_spec : ∀ f a, 1 ≤ a → a ≤ f →
    a = 2 ^ tzF f a * (a / 2 ^ tzF f a) ∧ (a / 2 ^ tzF f a) % 2 = 1 := by
  intro f
  induction f with
  | zero => intro a h1 h0; omega
  | succ f ih =>
    intro a h1 hf
    by_cases hodd : a % 2 = 1 ∨ a = 0
    · have ha : a % 2 = 1 := by rcases hodd with h | h; exact h; omega
      simp only [tzF, if_pos hodd, pow_zero, one_mul, Nat.div_one]
      exact ⟨trivial, ha⟩
    · rw [not_or] at hodd
      obtain ⟨hne1, hne0⟩ := hodd
      have he : a % 2 = 0 := by omega
      have h2 : 1 ≤ a / 2 := by omega
      have h2f : a / 2 ≤ f := by omega
      obtain ⟨ihd, ihm⟩ := ih (a / 2) h2 h2f
      simp only [tzF, if_neg (not_or.mpr ⟨hne1, hne0⟩)]
      have hdiv : a / 2 ^ (tzF f (a / 2) + 1) = a / 2 / 2 ^ tzF f (a / 2) := by
        rw [pow_succ, mul_comm (2 ^ tzF f (a / 2)) 2, ← Nat.div_div_eq_div_mul]
      refine ⟨?_, by rw [hdiv]; exact ihm⟩
      rw [hdiv, pow_succ]
      calc a = 2 * (a / 2) := by omega
        _ = 2 * (2 ^ tzF f (a / 2) * (a / 2 / 2 ^ tzF f (a / 2))) := by rw [← ihd]
        _ = 2 ^ tzF f (a / 2) * 2 * (a / 2 / 2 ^ tzF f (a / 2)) := by ring

theorem tz_spec (a : ℕ) (h : 1 ≤ a) :
    a = 2 ^ tz a * (a / 2 ^ tz a) ∧ (a / 2 ^ tz a) % 2 = 1 :=
  tzF_spec a a h le_rfl

theorem tz_dvd (a : ℕ) : 2 ^ tz a ∣ a := by
  rcases Nat.eq_zero_or_pos a with rfl | h
  · exact dvd_zero _
  · exact ⟨a / 2 ^ tz a, (tz_spec a h).1⟩

theorem addm_lt (a b m : ℕ) (hm : 1 ≤ m) : addm a b m < m :=
  Nat.mod_lt _ hm

theorem subm_lt (a b m : ℕ) (hm : 1 ≤ m) : subm a b m < m := by
  have ha := Nat.mod_lt a (show 0 < m by omega)
  have hb := Nat.mod_lt b (show 0 < m by omega)
  unfold subm
  split <;> omega

theorem mulm_lt (a b m : ℕ) (hm : 1 ≤ m) : mulm a b m < m :=
  Nat.mod_lt _ hm

/-- The value computed by `subm` is congruent to the integer difference
`a - b` modulo `m`. -/
theorem subm_modEq (a b m : ℕ) (hm : 1 ≤ m) :
    (subm a b m : ℤ) ≡ (a : ℤ) - b [ZMOD m] := by
  have ha := Nat.mod_lt a (show 0 < m by omega)
  have hb := Nat.mod_lt b (show 0 < m by omega)
  have hA : ((a % m : ℕ) : ℤ) ≡ (a : ℤ) [ZMOD m] := by
    push_cast
    exact Int.mod_modEq _ _
  have hB : ((b % m : ℕ) : ℤ) ≡ (b : ℤ) [ZMOD m] := by
    push_cast
    exact Int.mod_modEq _ _
  unfold subm
  split
  · calc ((a % m - b % m : ℕ) : ℤ)
        = ((a % m : ℕ) : ℤ) - ((b % m : ℕ) : ℤ) := by omega
      _ ≡ (a : ℤ) - b [ZMOD m] := hA.sub hB
  · calc ((m - (b % m - a % m) : ℕ) : ℤ)
        = (m : ℤ) + (((a % m : ℕ) : ℤ) - ((b % m : ℕ) : ℤ)) := by omega
      _ ≡ 0 + (((a % m : ℕ) : ℤ) - ((b % m : ℕ) : ℤ)) [ZMOD m] :=
        Int.ModEq.add (Int.modEq_zero_iff_dvd.mpr dvd_rfl) (Int.ModEq.refl _)
      _ = ((a % m : ℕ) : ℤ) - ((b % m : ℕ) : ℤ) := by ring
      _ ≡ (a : ℤ) - b [ZMOD m] := hA.sub hB

theorem addm_u128_eq (a b m : ℕ) (hm : 1 ≤ m) : addm_u128 a b m = (a + b) % m := by
  have ha := Nat.mod_lt a (show 0 < m by omega)
  have hb := Nat.mod_lt b (show 0 < m by omega)
  have hab : (a % m + b % m) % m = (a + b) % m := (Nat.add_mod a b m).symm
  unfold addm_u128
  split
  · rfl
  · split
    · rw [← hab]
      exact (Nat.mod_eq_of_lt (by omega)).symm
    · have hge : m ≤ a % m + b % m := by omega
      have hmm : min (a % m) (b % m) - (m - max (a % m) (b % m))
          = a % m + b % m - m := by omega
      rw [hmm, ← hab, Nat.mod_eq_sub_mod hge]
      exact (Nat.mod_eq_of_lt (by omega)).symm

theorem addm_u128_lt (a b m : ℕ) (hm : 1 ≤ m) : addm_u128 a b m < m := by
  rw [addm_u128_eq a b m hm]
  exact Nat.mod_lt _ hm

theorem mulmLoopF_eq : ∀ f aa b m result, 1 ≤ m → b < f → aa < m → result < m →
    mulmLoopF f aa b m result = (result + aa * b) % m := by
  intro f
  induction f with
  | zero => omega
  | succ f ih =>
    intro aa b m result hm hbf haa hres
    by_cases hb : b = 0
    · subst hb
      simp [mulmLoopF, Nat.mod_eq_of_lt hres]
    · simp only [mulmLoopF, if_neg hb]
      have hrec : b / 2 < f := by omega
      have haa' : addm_u128 aa aa m < m := addm_u128_lt _ _ _ hm
      rw [addm_u128_eq _ _ _ hm] at haa' ⊢
      by_cases hodd : b % 2 = 1
      · rw [if_pos hodd, addm_u128_eq _ _ _ hm]
        rw [ih _ _ _ _ hm hrec haa' (Nat.mod_lt _ (by omega))]
        have hb2 : 2 * (b / 2) + 1 = b := by omega
        exact calc (result + aa) % m + (aa + aa) % m * (b / 2)
            ≡ result + aa + (aa + aa) * (b / 2) [MOD m] :=
              (Nat.mod_modEq _ _).add ((Nat.mod_modEq _ _).mul_right _)
          _ = result + aa * (2 * (b / 2) + 1) := by ring
          _ = result + aa * b := by rw [hb2]
      · rw [if_neg hodd]
        rw [ih _ _ _ _ hm hrec haa' hres]
        have hb2 : 2 * (b / 2) = b := by omega
        exact calc result + (aa + aa) % m * (b / 2)
            ≡ result + (aa + aa) * (b / 2) [MOD m] :=
              Nat.ModEq.add_left _ ((Nat.mod_modEq _ _).mul_right _)
          _ = result + aa * (2 * (b / 2)) := by ring
          _ = result + aa * b := by rw [hb2]

theorem mulm_u128_eq (a b m : ℕ) (hm : 1 ≤ m) : mulm_u128 a b m = a * b % m := by
  unfold mulm_u128
  split
  · rfl
  · split
    · exact (Nat.mul_mod a b m).symm
    · rw [mulmLoopF_eq _ _ _ _ _ hm (Nat.lt_succ_self _) (Nat.mod_lt _ (by omega))
        (by omega)]
      rw [Nat.zero_add, ← Nat.mul_mod]

theorem mulm_u128_lt (a b m : ℕ) (hm : 1 ≤ m) : mulm_u128 a b m < m := by
  rw [mulm_u128_eq a b m hm]
  exact Nat.mod_lt _ hm

theorem powmLoopF_eq : ∀ f e multi m result, 1 ≤ m → e < f →
    (result < m ∨ 1 ≤ e) →
    powmLoopF f e multi m result = result * multi ^ e % m := by
  intro f
  induction f with
  | zero => omega
  | succ f ih =>
    intro e multi m result hm hef hside
    by_cases he : e = 0
    · subst he
      have hres : result < m := by rcases hside with h | h; exact h; omega
      simp only [powmLoopF, if_pos rfl, pow_zero, Nat.mul_one]
      exact (Nat.mod_eq_of_lt hres).symm
    · simp only [powmLoopF, if_neg he]
      have hrec : e / 2 < f := by omega
      by_cases hodd : e % 2 = 1
      · rw [if_pos hodd]
        rw [ih _ _ _ _ hm hrec (Or.inl (mulm_lt _ _ _ hm))]
        have he2 : 2 * (e / 2) + 1 = e := by omega
        exact calc (result * multi) % m * (mulm multi multi m) ^ (e / 2)
            ≡ result * multi * (multi * multi) ^ (e / 2) [MOD m] :=
              (Nat.mod_modEq _ _).mul ((Nat.mod_modEq _ _).pow _)
          _ = result * multi ^ (2 * (e / 2) + 1) := by ring
          _ = result * multi ^ e := by rw [he2]
      · rw [if_neg hodd]
        have hside' : result < m ∨ 1 ≤ e / 2 := by
          rcases hside with h | h
          · exact Or.inl h
          · exact Or.inr (by omega)
        rw [ih _ _ _ _ hm hrec hside']
        have he2 : 2 * (e / 2) = e := by omega
        exact calc result * (mulm multi multi m) ^ (e / 2)
            ≡ result * (multi * multi) ^ (e / 2) [MOD m] :=
              Nat.ModEq.mul_left _ ((Nat.mod_modEq _ _).pow _)
          _ = result * multi ^ (2 * (e / 2)) := by ring
          _ = result * multi ^ e := by rw [he2]

theorem powm_eq (a e m : ℕ) (hm : 1 ≤ m) (hs : 1 ≤ e ∨ 2 ≤ m) :
    powm a e m = a ^ e % m := by
  unfold powm
  by_cases h1 : e = 1
  · subst h1; rw [if_pos rfl, pow_one]
  · rw [if_neg h1]
    by_cases h2 : e = 2
    · subst h2
      rw [if_pos rfl]
      unfold mulm
      rw [pow_two]
    · rw [if_neg h2]
      have hside : (1 : ℕ) < m ∨ 1 ≤ e := by omega
      rw [powmLoopF_eq _ _ _ _ _ hm (Nat.lt_succ_self _)
        (by rcases hside with h | h; exact Or.inl h; exact Or.inr h)]
      rw [Nat.one_mul]
      exact (Nat.pow_mod a e m).symm

theorem powmLoop128F_eq_powmLoopF (m : ℕ) (hm : 1 ≤ m) :
    ∀ f e multi result, powmLoop128F f e multi m result = powmLoopF f e multi m result := by
  intro f
  induction f with
  | zero => intro e multi result; rfl
  | succ f ih =>
    intro e multi result
    by_cases he : e = 0
    · subst he; rfl
    · simp only [powmLoop128F, powmLoopF, if_neg he]
      rw [mulm_u128_eq _ _ _ hm, mulm_u128_eq _ _ _ hm, ih]
      rfl

theorem powm_u128_eq (a e m : ℕ) (hm : 1 ≤ m) (hs : 1 ≤ e ∨ 2 ≤ m) :
    powm_u128 a e m = a ^ e % m := by
  unfold powm_u128
  by_cases h1 : e = 1
  · subst h1; rw [if_pos rfl, pow_one]
  · rw [if_neg h1, powmLoop128F_eq_powmLoopF m hm]
    rw [powmLoopF_eq _ _ _ _ _ hm (Nat.lt_succ_self _) (by omega)]
    rw [Nat.one_mul]
    exact (Nat.pow_mod a e m).symm

theorem powm_lt (a e m : ℕ) (hm : 1 ≤ m) (hs : 1 ≤ e ∨ 2 ≤ m) : powm a e m < m := by
  rw [powm_eq a e m hm hs]
  exact Nat.mod_lt _ hm

theorem powm_u128_lt (a e m : ℕ) (hm : 1 ≤ m) (hs : 1 ≤ e ∨ 2 ≤ m) :
    powm_u128 a e m < m := by
  rw [powm_u128_eq a e m hm hs]
  exact Nat.mod_lt _ hm

theorem mulmBig_eq (a b m : ℕ) (hm : 1 ≤ m) : mulmBig a b m = a * b % m := by
  unfold mulmBig mulm
  split
  · rw [← Nat.mul_mod]
  · rw [← Nat.mul_mod]

theorem mulmBig_lt (a b m : ℕ) (hm : 1 ≤ m) : mulmBig a b m < m := by
  rw [mulmBig_eq a b m hm]
  exact Nat.mod_lt _ hm

/-! ### Claim C3: `powm` computes modular exponentiation -/

/-- C3 (amended).  For the primitive widths (`u8 … u64` share one
implementation, `u128` has its own) and for `BigUint`,
`powm(a, e, m) = a ^ e mod m` holds for every modulus `m ≥ 1` whenever
`e ≥ 1` or `m ≥ 2`; the `BigUint` implementation satisfies the identity for
all exponents including `e = 0`; `powm(a, 1, m) = a mod m` and
`powm(a, 2, m) = mulm(a, a, m)`.  The single deviation from the original
claim: for the primitive widths, `powm(a, 0, 1)` returns `1`, not
`a ^ 0 mod 1 = 0`. -/
theorem C3_powm (a e m : ℕ) (hm : 1 ≤ m) :
    (1 ≤ e ∨ 2 ≤ m → powm a e m = a ^ e % m ∧ powm_u128 a e m = a ^ e % m) ∧
    powmBig a e m = a ^ e % m ∧
    powm a 1 m = a % m ∧
    powm a 2 m = mulm a a m ∧
    powm a 0 1 = 1 ∧ powm_u128 a 0 1 = 1 := by
  refine ⟨fun hs => ⟨powm_eq a e m hm hs, powm_u128_eq a e m hm hs⟩, rfl, rfl, rfl,
    rfl, rfl⟩

/-- Closed instance of `C3_powm` at `a = 5`, `e = 3`, `m = 7`. -/
theorem C3_powm_witness :
    (1 ≤ 3 ∨ 2 ≤ 7 → powm 5 3 7 = 5 ^ 3 % 7 ∧ powm_u128 5 3 7 = 5 ^ 3 % 7) ∧
    powmBig 5 3 7 = 5 ^ 3 % 7 ∧
    powm 5 1 7 = 5 % 7 ∧
    powm 5 2 7 = mulm 5 5 7 ∧
    powm 5 0 1 = 1 ∧ powm_u128 5 0 1 = 1 :=
  C3_powm 5 3 7 (by decide)

/-- The original claim C3 fails at the concrete input `a = 5`, `e = 0`,
`m = 1`: the primitive-width `powm` returns `1` while `5 ^ 0 mod 1 = 0`. -/
theorem C3_powm_counterexample :
    powm 5 0 1 = 1 ∧ 5 ^ 0 % 1 = 0 ∧ powm 5 0 1 ≠ 5 ^ 0 % 1 := by decide

/-! ### Claim C4: the `u128` `addm` including its overflow branch -/

/-- C4 (confirmed).  For all `u128` operands and every modulus `m ≥ 1`, the
`u128` `addm` — including the overflow branch that reduces both operands and
takes either `lhs + rhs` or the split sum `min - (m - max)` — computes the
mathematical `(a + b) mod m`. -/
theorem C4_addm_u128 (a b m : ℕ) (ha : a < 2 ^ 128) (hb : b < 2 ^ 128)
    (hm : 1 ≤ m) : addm_u128 a b m = (a + b) % m :=
  addm_u128_eq a b m hm

/-- Closed instance of `C4_addm_u128` on operands whose sum overflows
`2 ^ 128` (the split-sum branch). -/
theorem C4_addm_u128_witness :
    addm_u128 (2 ^ 127 + 1) (2 ^ 127 + 5) 97 = (2 ^ 127 + 1 + (2 ^ 127 + 5)) % 97 :=
  C4_addm_u128 (2 ^ 127 + 1) (2 ^ 127 + 5) 97 (by norm_num) (by norm_num) (by norm_num)

/-! ### Claim C7: all modular operations land in `[0, m)` -/

/-- C7 (amended).  For every width, `addm`, `subm`, `mulm` return a value
in `[0, m)` for every `m ≥ 1`, and so does `powm` whenever `e ≥ 1` or
`m ≥ 2` — but for the primitive widths `powm(a, 0, 1) = 1 ∉ [0, 1)`, the
single deviation from the original claim. -/
theorem C7_range (a b e m : ℕ) (hm : 1 ≤ m) :
    addm a b m < m ∧ subm a b m < m ∧ mulm a b m < m ∧
    addm_u128 a b m < m ∧ mulm_u128 a b m < m ∧ mulmBig a b m < m ∧
    powmBig a e m < m ∧
    (1 ≤ e ∨ 2 ≤ m → powm a e m < m ∧ powm_u128 a e m < m) ∧
    ¬ powm a 0 1 < 1 :=
  ⟨addm_lt a b m hm, subm_lt a b m hm, mulm_lt a b m hm,
    addm_u128_lt a b m hm, mulm_u128_lt a b m hm, mulmBig_lt a b m hm,
    Nat.mod_lt _ hm,
    fun hs => ⟨powm_lt a e m hm hs, powm_u128_lt a e m hm hs⟩,
    by simp [powm, powmLoopF]⟩

/-- Closed instance of `C7_range` at `a = 3`, `b = 4`, `e = 5`, `m = 7`. -/
theorem C7_range_witness :
    addm 3 4 7 < 7 ∧ subm 3 4 7 < 7 ∧ mulm 3 4 7 < 7 ∧
    addm_u128 3 4 7 < 7 ∧ mulm_u128 3 4 7 < 7 ∧ mulmBig 3 4 7 < 7 ∧
    powmBig 3 5 7 < 7 ∧
    (1 ≤ 5 ∨ 2 ≤ 7 → powm 3 5 7 < 7 ∧ powm_u128 3 5 7 < 7) ∧
    ¬ powm 3 0 1 < 1 :=
  C7_range 3 4 5 7 (by decide)

/-- The original claim C7 fails at the concrete input `a = 3`, `e = 0`,
`m = 1`: the primitive-width `powm` returns `1`, which is not below `m = 1`. -/
theorem C7_range_counterexample : ¬ powm 3 0 1 < 1 := by decide

/-! ### Claim C8: `fac2` counts the factors of two -/

/-- C8 (amended).  For every width and every `a ≥ 1`, `fac2(a)` is the
exponent `k` with `a = 2 ^ k · odd`.  At `a = 0` the `BigUint`
implementation returns `0`, but each primitive width `uW` returns the bit
width `W` (Rust `trailing_zeros(0) = W`), the single deviation from the
original claim. -/
theorem C8_fac2 :
    (∀ w a, 1 ≤ a →
      a = 2 ^ fac2Prim w a * (a / 2 ^ fac2Prim w a) ∧
        (a / 2 ^ fac2Prim w a) % 2 = 1) ∧
    (∀ a, 1 ≤ a →
      a = 2 ^ fac2Big a * (a / 2 ^ fac2Big a) ∧ (a / 2 ^ fac2Big a) % 2 = 1) ∧
    fac2Big 0 = 0 ∧ (∀ w, fac2Prim w 0 = w) := by
  refine ⟨fun w a h => ?_, fun a h => ?_, rfl, fun w => rfl⟩
  · unfold fac2Prim
    rw [if_neg (by omega)]
    exact tz_spec a h
  · unfold fac2Big
    rw [if_neg (by omega)]
    exact tz_spec a h

/-- Closed instance of `C8_fac2` at width 64 on `a = 12 = 2 ^ 2 · 3`. -/
theorem C8_fac2_witness :
    12 = 2 ^ fac2Prim 64 12 * (12 / 2 ^ fac2Prim 64 12) ∧
      (12 / 2 ^ fac2Prim 64 12) % 2 = 1 :=
  C8_fac2.1 64 12 (by decide)

/-- The original claim C8 fails at the concrete input `a = 0` on the
64-bit width: `fac2(0)` is `64`, not `0`. -/
theorem C8_fac2_counterexample : fac2Prim 64 0 = 64 ∧ fac2Prim 64 0 ≠ 0 := by decide

/-! ### Modular inverse (`invm`) -/

/-- Fueled model of the extended-Euclid loop of `invm`
(`src/integer.rs:44-60`): state `(last_r, r, last_t, t)`; while `r > 0`,
take `(quo, rem) = div_rem(last_r, r)` and update the Bezout coefficient
by `new_t = subm(last_t, mulm(quo, t, m), m)`.  Fuel exhaustion returns
the current state; the call site supplies fuel `m`, which suffices since
`r` strictly decreases. -/
def invmLoopF : ℕ → ℕ → ℕ → ℕ → ℕ → ℕ → ℕ × ℕ
  | 0, _, lastR, _, lastT, _ => (lastR, lastT)
  | f + 1, m, lastR, r, lastT, t =>
    if r = 0 then (lastR, lastT)
    else invmLoopF f m r (lastR % r) t (subm lastT (mulm (lastR / r) t m) m)

/-- Model of `invm` (`src/integer.rs:42-62`; the same algorithm is
instantiated at every primitive width, the `u128` instance differing only
in using the `u128` `mulm`, which agrees with `mulm` by `mulm_u128_eq`,
and the `BigUint` instance `src/integer.rs:260-276` being literally the
same loop).  Reduce the input if needed, run the loop from
`(m, x, 0, 1)`, and fail iff the final remainder exceeds 1. -/
def invm (a m : ℕ) : Option ℕ :=
  if 1 < (invmLoopF m m m (if m ≤ a then a % m else a) 0 1).1 then none
  else some (invmLoopF m m m (if m ≤ a then a % m else a) 0 1).2

theorem invmLoopF_spec (aa : ℕ) : ∀ (f m lastR r lastT t : ℕ), 1 ≤ m → r < f →
    ((lastT : ℤ) * aa ≡ (lastR : ℤ) [ZMOD (m : ℤ)]) →
    ((t : ℤ) * aa ≡ (r : ℤ) [ZMOD (m : ℤ)]) →
    (invmLoopF f m lastR r lastT t).1 = Nat.gcd r lastR ∧
    ((invmLoopF f m lastR r lastT t).2 : ℤ) * aa
      ≡ (invmLoopF f m lastR r lastT t).1 [ZMOD m] := by
  intro f
  induction f with
  | zero => omega
  | succ f ih =>
    intro m lastR r lastT t hm hrf hlast hcur
    by_cases hr : r = 0
    · subst hr
      exact ⟨(Nat.gcd_zero_left lastR).symm, hlast⟩
    · have hunf : invmLoopF (f + 1) m lastR r lastT t
          = invmLoopF f m r (lastR % r) t (subm lastT (mulm (lastR / r) t m) m) := by
        conv_lhs => rw [invmLoopF]
        rw [if_neg hr]
      rw [hunf]
      have hrpos : 0 < r := by omega
      have hnew : ((subm lastT (mulm (lastR / r) t m) m : ℕ) : ℤ) * aa
          ≡ (lastR % r : ℕ) [ZMOD m] := by
        have hsub := subm_modEq lastT (mulm (lastR / r) t m) m hm
        have hmulm : ((mulm (lastR / r) t m : ℕ) : ℤ)
            ≡ ((lastR / r : ℕ) : ℤ) * t [ZMOD m] := by
          unfold mulm
          push_cast
          exact Int.mod_modEq _ _
        have hmod : ((lastR % r : ℕ) : ℤ)
            = (lastR : ℤ) - ((lastR / r : ℕ) : ℤ) * r := by
          have h2 : ((lastR % r : ℕ) : ℤ) + (r : ℤ) * ((lastR / r : ℕ) : ℤ)
              = (lastR : ℤ) := by
            exact_mod_cast Nat.mod_add_div lastR r
          rw [← h2]
          ring
        calc ((subm lastT (mulm (lastR / r) t m) m : ℕ) : ℤ) * aa
            ≡ ((lastT : ℤ) - (mulm (lastR / r) t m : ℕ)) * aa [ZMOD m] :=
              hsub.mul_right _
          _ ≡ ((lastT : ℤ) - ((lastR / r : ℕ) : ℤ) * t) * aa [ZMOD m] :=
              ((Int.ModEq.refl _).sub hmulm).mul_right _
          _ = (lastT : ℤ) * aa - ((lastR / r : ℕ) : ℤ) * ((t : ℤ) * aa) := by ring
          _ ≡ (lastR : ℤ) - ((lastR / r : ℕ) : ℤ) * r [ZMOD m] :=
              hlast.sub (hcur.mul_left _)
          _ = ((lastR % r : ℕ) : ℤ) := hmod.symm
      have hltf : lastR % r < f := lt_of_lt_of_le (Nat.mod_lt _ hrpos) (by omega)
      have hrec := ih m r (lastR % r) t (subm lastT (mulm (lastR / r) t m) m)
        hm hltf hcur hnew
      refine ⟨?_, hrec.2⟩
      rw [hrec.1]
      exact (Nat.gcd_rec r lastR).symm

theorem invm_loop_result (a m : ℕ) (hm : 1 ≤ m) :
    (invmLoopF m m m (if m ≤ a then a % m else a) 0 1).1 = Nat.gcd a m ∧
    ((invmLoopF m m m (if m ≤ a then a % m else a) 0 1).2 : ℤ) * a
      ≡ (invmLoopF m m m (if m ≤ a then a % m else a) 0 1).1 [ZMOD m] := by
  have hx : (if m ≤ a then a % m else a) = a % m := by
    split
    · rfl
    · exact (Nat.mod_eq_of_lt (by omega)).symm
  rw [hx]
  have h1 : ((0 : ℕ) : ℤ) * a ≡ m [ZMOD m] := by
    calc ((0 : ℕ) : ℤ) * a = 0 := by ring
      _ ≡ m [ZMOD m] := (Int.modEq_zero_iff_dvd.mpr dvd_rfl).symm
  have h2 : ((1 : ℕ) : ℤ) * a ≡ (a % m : ℕ) [ZMOD m] := by
    have : ((a % m : ℕ) : ℤ) ≡ (a : ℤ) [ZMOD m] := by
      push_cast
      exact Int.mod_modEq _ _
    calc ((1 : ℕ) : ℤ) * a = (a : ℤ) := by ring
      _ ≡ (a % m : ℕ) [ZMOD m] := this.symm
  have hspec := invmLoopF_spec a m m m (a % m) 0 1 hm
    (Nat.mod_lt _ (by omega)) h1 h2
  refine ⟨?_, hspec.2⟩
  rw [hspec.1, ← Nat.gcd_rec m a, Nat.gcd_comm]

/-! ### Claim C5: `invm` and modular inverses -/

/-- C5 (confirmed).  For every width (the loop body is identical across
widths), `invm(a, m)` succeeds exactly when `gcd(a, m) = 1`; on success the
returned `x` satisfies `mulm(a, x, m) = 1 mod m`; and for `m > 1`,
`invm(0, m)` fails while `invm(1, m) = Some 1`. -/
theorem C5_invm (a m : ℕ) (hm : 1 ≤ m) :
    ((invm a m).isSome = true ↔ Nat.gcd a m = 1) ∧
    (∀ x, invm a m = some x → mulm a x m = 1 % m) ∧
    (1 < m → invm 0 m = none ∧ invm 1 m = some 1) := by
  obtain ⟨hgcd, hcong⟩ := invm_loop_result a m hm
  have hgpos : 0 < Nat.gcd a m := Nat.gcd_pos_of_pos_right a (by omega)
  refine ⟨?_, ?_, ?_⟩
  · unfold invm
    set b := invmLoopF m m m (if m ≤ a then a % m else a) 0 1 with hbdef
    split
    · rename_i h
      rw [hgcd] at h
      simp only [Option.isSome_none, Bool.false_eq_true, false_iff]
      omega
    · rename_i h
      rw [hgcd] at h
      simp only [Option.isSome_some, true_iff]
      omega
  · intro x hx
    unfold invm at hx
    set b := invmLoopF m m m (if m ≤ a then a % m else a) 0 1 with hbdef
    split at hx
    · exact absurd hx (by simp)
    · rename_i h
      rw [hgcd] at h
      have hg1 : Nat.gcd a m = 1 := by omega
      have hbx : b.2 = x := by injection hx
      subst hbx
      rw [hgcd, hg1] at hcong
      have hone : ((a * b.2 : ℕ) : ℤ) ≡ ((1 : ℕ) : ℤ) [ZMOD m] := by
        push_cast
        calc (a : ℤ) * b.2 = (b.2 : ℤ) * a := by ring
          _ ≡ 1 [ZMOD m] := by exact_mod_cast hcong
      unfold mulm
      exact Int.natCast_modEq_iff.mp hone
  · intro hm1
    constructor
    · have h0 : Nat.gcd 0 m = m := Nat.gcd_zero_left m
      obtain ⟨hg, _⟩ := invm_loop_result 0 m hm
      unfold invm
      rw [if_pos (by rw [hg, h0]; omega)]
    · obtain ⟨k, rfl⟩ : ∃ k, m = k + 2 := ⟨m - 2, by omega⟩
      unfold invm
      have hx : (if k + 2 ≤ 1 then 1 % (k + 2) else 1) = 1 := by
        rw [if_neg (by omega)]
      rw [hx]
      have hstep : invmLoopF (k + 2) (k + 2) (k + 2) 1 0 1 = (1, 1) := by
        have e1 : invmLoopF (k + 2) (k + 2) (k + 2) 1 0 1
            = invmLoopF (k + 1) (k + 2) 1 ((k + 2) % 1) 1
                (subm 0 (mulm ((k + 2) / 1) 1 (k + 2)) (k + 2)) := rfl
        have e2 : (k + 2) % 1 = 0 := Nat.mod_one _
        have e3 : mulm ((k + 2) / 1) 1 (k + 2) = 0 := by
          unfold mulm
          rw [Nat.div_one, Nat.mul_one, Nat.mod_self]
        have e4 : subm 0 0 (k + 2) = 0 := by
          unfold subm
          simp
        rw [e1, e2, e3, e4]
        rfl
      rw [hstep]
      simp

/-- Sanity check mirroring the repository test `invm_test`:
`invm(999, 5000) = Some(3999)`. -/
theorem invm_test_case : invm 999 5000 = some 3999 := by decide

/-- Closed instance of `C5_invm` at `a = 999`, `m = 5000`. -/
theorem C5_invm_witness :
    ((invm 999 5000).isSome = true ↔ Nat.gcd 999 5000 = 1) ∧
    (∀ x, invm 999 5000 = some x → mulm 999 x 5000 = 1 % 5000) ∧
    (1 < 5000 → invm 0 5000 = none ∧ invm 1 5000 = some 1) :=
  C5_invm 999 5000 (by decide)

/-! ### Jacobi symbol -/

/-- Fueled model of the inner loop of `jacobi` (`src/integer.rs:24-29`):
while `a` is even, halve it, flipping the sign `t` when
`n & 7 ∈ {3, 5}`.  The extra `a ≠ 0` guard totalizes the function (the
Rust loop is only ever entered with `a > 0`). -/
def jacobiStripF : ℕ → ℕ → ℕ → ℤ → ℕ × ℤ
  | 0, a, _, t => (a, t)
  | f + 1, a, n, t =>
    if a % 2 = 0 ∧ a ≠ 0 then
      jacobiStripF f (a / 2) n (if n % 8 = 3 ∨ n % 8 = 5 then -t else t)
    else (a, t)

/-- Fueled model of the outer loop of `jacobi` (`src/integer.rs:23-35`):
while `a > 0`, strip the factors of two from `a`, swap `a` and `n`
(flipping the sign when both are `3 mod 4`), and reduce `a mod n`; on
exit return the sign if `n = 1` and `0` otherwise. -/
def jacobiLoopF : ℕ → ℕ → ℕ → ℤ → ℤ
  | 0, a, n, t => if a = 0 then (if n = 1 then t else 0) else 0
  | f + 1, a, n, t =>
    if a = 0 then (if n = 1 then t else 0)
    else
      jacobiLoopF f (n % (jacobiStripF a a n t).1) (jacobiStripF a a n t).1
        (if n % 4 = 3 ∧ (jacobiStripF a a n t).1 % 4 = 3
          then -(jacobiStripF a a n t).2 else (jacobiStripF a a n t).2)

/-- Model of `jacobi` (`src/integer.rs:14-37`; the `BigUint` version
`src/integer.rs:231-258` is the same algorithm): zero and one short
circuits, then the binary reciprocity loop started at `a mod n` with sign
`1`.  Fuel `a mod n + 1` suffices because the first loop argument
strictly decreases. -/
def jacobi (a n : ℕ) : ℤ :=
  if a = 0 then 0
  else if a = 1 then 1
  else jacobiLoopF (a % n + 1) (a % n) n 1

theorem jacobiStripF_spec : ∀ f a n t, 0 < a → a ≤ f → n % 2 = 1 →
    (t = 1 ∨ t = -1) →
    0 < (jacobiStripF f a n t).1 ∧ (jacobiStripF f a n t).1 ≤ a ∧
    (jacobiStripF f a n t).1 % 2 = 1 ∧
    ((jacobiStripF f a n t).2 = 1 ∨ (jacobiStripF f a n t).2 = -1) ∧
    (jacobiStripF f a n t).2 * jacobiSym ((jacobiStripF f a n t).1 : ℤ) n
      = t * jacobiSym (a : ℤ) n := by
  intro f
  induction f with
  | zero => intro a n t ha hf; omega
  | succ f ih =>
    intro a n t ha hf hn ht
    by_cases hcond : a % 2 = 0 ∧ a ≠ 0
    · have hunf : jacobiStripF (f + 1) a n t
          = jacobiStripF f (a / 2) n (if n % 8 = 3 ∨ n % 8 = 5 then -t else t) := by
        conv_lhs => rw [jacobiStripF]
        rw [if_pos hcond]
      rw [hunf]
      have ht' : (if n % 8 = 3 ∨ n % 8 = 5 then -t else t) = 1 ∨
          (if n % 8 = 3 ∨ n % 8 = 5 then -t else t) = -1 := by
        split <;> rcases ht with h | h <;> simp [h]
      have hrec := ih (a / 2) n (if n % 8 = 3 ∨ n % 8 = 5 then -t else t)
        (by omega) (by omega) hn ht'
      refine ⟨hrec.1, le_trans hrec.2.1 (by omega), hrec.2.2.1, hrec.2.2.2.1, ?_⟩
      rw [hrec.2.2.2.2]
      have hdiv : ((a / 2 : ℕ) : ℤ) = (a : ℤ) / 2 := Int.ofNat_ediv a 2
      have heo := jacobiSym.even_odd (a := (a : ℤ)) (b := n)
        (by omega) hn
      by_cases h8 : n % 8 = 3 ∨ n % 8 = 5
      · rw [if_pos h8] at heo ⊢
        rw [hdiv, ← heo]
        ring
      · rw [if_neg h8] at heo ⊢
        rw [hdiv, ← heo]
    · have hunf : jacobiStripF (f + 1) a n t = (a, t) := by
        conv_lhs => rw [jacobiStripF]
        rw [if_neg hcond]
      rw [hunf]
      exact ⟨ha, le_rfl, by omega, ht, rfl⟩

theorem jacobiLoopF_spec : ∀ f a n t, a < f → n % 2 = 1 → 0 < n →
    (t = 1 ∨ t = -1) →
    jacobiLoopF f a n t = t * jacobiSym (a : ℤ) n := by
  intro f
  induction f with
  | zero => omega
  | succ f ih =>
    intro a n t haf hn hnpos ht
    by_cases ha : a = 0
    · subst ha
      have hunf : jacobiLoopF (f + 1) 0 n t = if n = 1 then t else 0 := by
        conv_lhs => rw [jacobiLoopF]
        rw [if_pos rfl]
      rw [hunf]
      by_cases h1 : n = 1
      · subst h1
        rw [if_pos rfl, Nat.cast_zero, jacobiSym.one_right, mul_one]
      · rw [if_neg h1, Nat.cast_zero,
          jacobiSym.zero_left (by omega : 1 < n), mul_zero]
    · have hapos : 0 < a := by omega
      obtain ⟨hs1, hs2, hs3, hs4, hs5⟩ :=
        jacobiStripF_spec a a n t hapos le_rfl hn ht
      have hunf : jacobiLoopF (f + 1) a n t
          = jacobiLoopF f (n % (jacobiStripF a a n t).1) (jacobiStripF a a n t).1
              (if n % 4 = 3 ∧ (jacobiStripF a a n t).1 % 4 = 3
                then -(jacobiStripF a a n t).2 else (jacobiStripF a a n t).2) := by
        conv_lhs => rw [jacobiLoopF]
        rw [if_neg ha]
      rw [hunf]
      have ht2 : (if n % 4 = 3 ∧ (jacobiStripF a a n t).1 % 4 = 3
          then -(jacobiStripF a a n t).2 else (jacobiStripF a a n t).2) = 1 ∨
          (if n % 4 = 3 ∧ (jacobiStripF a a n t).1 % 4 = 3
          then -(jacobiStripF a a n t).2 else (jacobiStripF a a n t).2) = -1 := by
        split <;> rcases hs4 with h | h <;> simp [h]
      have hmodlt : n % (jacobiStripF a a n t).1 < f :=
        lt_of_lt_of_le (Nat.mod_lt _ hs1) (by omega)
      rw [ih _ _ _ hmodlt hs3 hs1 ht2]
      have hmodcast : ((n % (jacobiStripF a a n t).1 : ℕ) : ℤ)
          = (n : ℤ) % ((jacobiStripF a a n t).1 : ℤ) := by push_cast; ring
      have hml : jacobiSym ((n % (jacobiStripF a a n t).1 : ℕ) : ℤ)
          (jacobiStripF a a n t).1 = jacobiSym (n : ℤ) (jacobiStripF a a n t).1 := by
        rw [hmodcast]
        exact (jacobiSym.mod_left (n : ℤ) _).symm
      have hqr := jacobiSym.quadratic_reciprocity_if hs3 hn
      by_cases h34 : n % 4 = 3 ∧ (jacobiStripF a a n t).1 % 4 = 3
      · rw [if_pos h34, hml]
        rw [if_pos ⟨h34.2, h34.1⟩] at hqr
        rw [← hs5, ← hqr]
        ring
      · rw [if_neg h34, hml]
        rw [if_neg (by tauto)] at hqr
        rw [← hs5, ← hqr]

/-- The embedded `jacobi` agrees with the mathematical Jacobi symbol
except at the single point `a = 0`, `n = 1` (see claim C10). -/
theorem jacobi_eq_jacobiSym (a n : ℕ) (hn : n % 2 = 1) (hpos : 0 < n)
    (hne : ¬(a = 0 ∧ n = 1)) : jacobi a n = jacobiSym (a : ℤ) n := by
  unfold jacobi
  by_cases h0 : a = 0
  · subst h0
    rw [if_pos rfl, Nat.cast_zero, jacobiSym.zero_left]
    have : n ≠ 1 := fun h => hne ⟨rfl, h⟩
    omega
  · rw [if_neg h0]
    by_cases h1 : a = 1
    · subst h1
      rw [if_pos rfl, Nat.cast_one, jacobiSym.one_left]
    · rw [if_neg h1]
      rw [jacobiLoopF_spec (a % n + 1) (a % n) n 1 (Nat.lt_succ_self _) hn hpos
        (Or.inl rfl), one_mul]
      have : ((a % n : ℕ) : ℤ) = (a : ℤ) % n := by push_cast; ring
      rw [this]
      exact (jacobiSym.mod_left (a : ℤ) n).symm

/-- Sanity checks mirroring the repository test `jacobi_test`. -/
theorem jacobi_test_case : jacobi 19 29 = -1 ∧ jacobi 29 9 = 1 ∧ jacobi 11 33 = 0 := by
  decide

/-! ### Claim C6: `jacobi` computes the Jacobi symbol -/

/-- C6 (confirmed).  For every width (the loop is identical across
widths), for every odd `n ≥ 1`: `jacobi(a, n) ∈ {-1, 0, 1}`; when `n` is
an odd prime it equals the Legendre symbol `(a | n)`; and for `n > 1` it
is `0` exactly when `gcd(a, n) > 1`. -/
theorem C6_jacobi (a n : ℕ) (hodd : Odd n) (hpos : 1 ≤ n) :
    (jacobi a n = -1 ∨ jacobi a n = 0 ∨ jacobi a n = 1) ∧
    (∀ hp : n.Prime, jacobi a n = @legendreSym n ⟨hp⟩ (a : ℤ)) ∧
    (1 < n → (jacobi a n = 0 ↔ 1 < Nat.gcd a n)) := by
  have hn2 : n % 2 = 1 := Nat.odd_iff.mp hodd
  refine ⟨?_, ?_, ?_⟩
  · by_cases hne : a = 0 ∧ n = 1
    · rw [hne.1, hne.2]
      right; left; rfl
    · rw [jacobi_eq_jacobiSym a n hn2 (by omega) hne]
      rcases jacobiSym.trichotomy (a : ℤ) n with h | h | h
      · right; left; exact h
      · right; right; exact h
      · left; exact h
  · intro hp
    have h2 : 2 ≤ n := hp.two_le
    rw [jacobi_eq_jacobiSym a n hn2 (by omega) (by omega)]
    exact (@jacobiSym.legendreSym.to_jacobiSym n ⟨hp⟩ (a : ℤ)).symm
  · intro h1
    rw [jacobi_eq_jacobiSym a n hn2 (by omega) (by omega)]
    rw [jacobiSym.eq_zero_iff]
    have hg : Int.gcd (a : ℤ) (n : ℤ) = Nat.gcd a n := Int.gcd_natCast_natCast a n
    have hgpos : 0 < Nat.gcd a n := Nat.gcd_pos_of_pos_right a (by omega)
    constructor
    · intro h
      rw [hg] at h
      omega
    · intro h
      refine ⟨by omega, ?_⟩
      rw [hg]
      omega

/-- Closed instance of `C6_jacobi` at `a = 19`, `n = 29` (an odd prime). -/
theorem C6_jacobi_witness :
    (jacobi 19 29 = -1 ∨ jacobi 19 29 = 0 ∨ jacobi 19 29 = 1) ∧
    (∀ hp : Nat.Prime 29, jacobi 19 29 = @legendreSym 29 ⟨hp⟩ (19 : ℤ)) ∧
    (1 < 29 → (jacobi 19 29 = 0 ↔ 1 < Nat.gcd 19 29)) :=
  C6_jacobi 19 29 (by decide) (by decide)

/-! ### Claim C10: `jacobi` at `a = 0` and at modulus `n = 1` -/

/-- C10 (confirmed).  `jacobi(0, n) = 0` for every `n` — including `n = 1`,
where the mathematical convention has `(0 | 1) = 1` (`jacobiSym 0 1 = 1`) —
while `jacobi(a, 1) = 1` for every `a ≥ 1`: at modulus `1` the code
returns `1` except at the single input `a = 0`, which yields `0`. -/
theorem C10_jacobi :
    (∀ n, jacobi 0 n = 0) ∧ jacobiSym 0 1 = 1 ∧
    (∀ a, 1 ≤ a → jacobi a 1 = 1) := by
  refine ⟨fun n => rfl, jacobiSym.one_right 0, fun a ha => ?_⟩
  unfold jacobi
  rw [if_neg (by omega)]
  by_cases h1 : a = 1
  · rw [if_pos h1]
  · rw [if_neg h1, Nat.mod_one]
    rfl

/-- Closed instance of `C10_jacobi` at `a = 7`, `n = 1`. -/
theorem C10_jacobi_witness : jacobi 7 1 = 1 :=
  C10_jacobi.2.2 7 (by decide)

/-! ### The small-prime table and `is_prime64` -/

/-- Fueled linear search for the integer square root (the model of Rust's
`num_integer::Roots::sqrt`, kept structurally recursive so that concrete
runs reduce in the kernel; `sqrtN_eq` identifies it with `Nat.sqrt`). -/
def sqrtAuxF : ℕ → ℕ → ℕ → ℕ
  | 0, i, _ => i
  | f + 1, i, n => if (i + 1) * (i + 1) ≤ n then sqrtAuxF f (i + 1) n else i

/-- Integer square root (floor), with sufficient fuel. -/
def sqrtN (n : ℕ) : ℕ := sqrtAuxF n 0 n

theorem sqrtAuxF_spec : ∀ f i n, i * i ≤ n → n < (i + f + 1) * (i + f + 1) →
    sqrtAuxF f i n * sqrtAuxF f i n ≤ n ∧
    n < (sqrtAuxF f i n + 1) * (sqrtAuxF f i n + 1) := by
  intro f
  induction f with
  | zero =>
    intro i n hlo hhi
    exact ⟨hlo, by simpa using hhi⟩
  | succ f ih =>
    intro i n hlo hhi
    by_cases hstep : (i + 1) * (i + 1) ≤ n
    · have hunf : sqrtAuxF (f + 1) i n = sqrtAuxF f (i + 1) n := by
        conv_lhs => rw [sqrtAuxF]
        rw [if_pos hstep]
      rw [hunf]
      exact ih (i + 1) n hstep (by have := hhi; ring_nf at this ⊢; omega)
    · have hunf : sqrtAuxF (f + 1) i n = i := by
        conv_lhs => rw [sqrtAuxF]
        rw [if_neg hstep]
      rw [hunf]
      exact ⟨hlo, by omega⟩

theorem sqrtN_eq (n : ℕ) : sqrtN n = Nat.sqrt n := by
  obtain ⟨hlo, hhi⟩ := sqrtAuxF_spec n 0 n (by omega) (by nlinarith)
  have h1 : sqrtN n ≤ Nat.sqrt n := Nat.le_sqrt.mpr hlo
  have h2 : Nat.sqrt n < sqrtN n + 1 := Nat.sqrt_lt.mpr hhi
  omega

/-- Decidable trial-division primality test used to construct the
small-prime table: `n` is prime iff `2 ≤ n` and no `d` with
`2 ≤ d ≤ √n` divides `n`. -/
def isPrimeTD (n : ℕ) : Bool :=
  decide (2 ≤ n) && (List.range' 2 (sqrtN n - 1)).all (fun d => decide (¬ d ∣ n))

theorem isPrimeTD_iff (n : ℕ) : isPrimeTD n = true ↔ n.Prime := by
  rw [Nat.prime_def_le_sqrt, isPrimeTD, sqrtN_eq]
  simp only [Bool.and_eq_true, decide_eq_true_eq, List.all_eq_true, List.mem_range'_1]
  constructor
  · rintro ⟨h2, hall⟩
    have hs : 1 ≤ Nat.sqrt n := by
      have h1 : Nat.sqrt 1 ≤ Nat.sqrt n := Nat.sqrt_le_sqrt (by omega)
      simpa using h1
    exact ⟨h2, fun m hm hms => hall m ⟨hm, by omega⟩⟩
  · rintro ⟨h2, hall⟩
    exact ⟨h2, fun m hm => hall m hm.1 (by omega)⟩

/-- Modelled from the spec: the table `SMALL_PRIMES` of `tables.rs` (not
under `src/`) holds, with the big-table feature, all primes below the
cutoff 8168 in ascending order (spec §6).  Membership of a sorted slice
is what `binary_search(..).is_ok()` decides. -/
def smallPrimes : List ℕ := (List.range' 0 8168).filter (fun n => isPrimeTD n)

theorem smallPrimes_mem (p : ℕ) : p ∈ smallPrimes ↔ p.Prime ∧ p < 8168 := by
  rw [smallPrimes, List.mem_filter, List.mem_range'_1, isPrimeTD_iff]
  constructor
  · rintro ⟨⟨h0, h⟩, hp⟩
    exact ⟨hp, by omega⟩
  · rintro ⟨hp, h⟩
    exact ⟨⟨by omega, by omega⟩, hp⟩

theorem smallPrimes_pairwise : smallPrimes.Pairwise (· < ·) :=
  (List.pairwise_lt_range' 0 8168).filter _

theorem smallPrimes_sorted : smallPrimes.Chain' (· < ·) :=
  smallPrimes_pairwise.chain'

theorem smallPrimes_head : smallPrimes = 2 :: smallPrimes.tail := by
  have h2 : (2 : ℕ) ∈ smallPrimes := (smallPrimes_mem 2).mpr ⟨Nat.prime_two, by norm_num⟩
  cases hsp : smallPrimes with
  | nil => rw [hsp] at h2; exact absurd h2 (by simp)
  | cons x xs =>
    have hx : x ∈ smallPrimes := by rw [hsp]; exact List.mem_cons_self x xs
    have hxp : x.Prime := ((smallPrimes_mem x).mp hx).1
    have hpw := smallPrimes_pairwise
    rw [hsp] at hpw h2
    rcases List.mem_cons.mp h2 with h | h
    · rw [← h]
      rfl
    · have hxlt : x < 2 := (List.pairwise_cons.mp hpw).1 2 h
      have := hxp.two_le
      omega

theorem smallPrimes_tail_mem (p : ℕ) (hp : p ∈ smallPrimes.tail) :
    p.Prime ∧ 3 ≤ p ∧ p < 8168 ∧ p % 2 = 1 := by
  have hmem : p ∈ smallPrimes := by
    rw [smallPrimes_head]
    exact List.mem_cons_of_mem _ hp
  obtain ⟨hprime, hlt⟩ := (smallPrimes_mem p).mp hmem
  have h2p : 2 < p := by
    have := smallPrimes_pairwise
    rw [smallPrimes_head] at this
    exact (List.pairwise_cons.mp this).1 p hp
  have hodd : p % 2 = 1 := by
    rcases Nat.mod_two_eq_zero_or_one p with h | h
    · exfalso
      have : (2 : ℕ) ∣ p := Nat.dvd_of_mod_eq_zero h
      have := (Nat.Prime.eq_one_or_self_of_dvd hprime 2 this).resolve_left (by omega)
      omega
    · exact h
  exact ⟨hprime, by omega, hlt, hodd⟩

theorem smallPrimes_tail_complete (q : ℕ) (hq : q.Prime) (hlt : q < 8168)
    (hne : q ≠ 2) : q ∈ smallPrimes.tail := by
  have hmem : q ∈ smallPrimes := (smallPrimes_mem q).mpr ⟨hq, hlt⟩
  rw [smallPrimes_head] at hmem
  rcases List.mem_cons.mp hmem with h | h
  · exact absurd h hne
  · exact h

/-- Modelled from the spec: `is_sprp` lives in `primality.rs`, not under
`src/`.  Spec §4.2: on odd `n > 2` write `n − 1 = d · 2^s` with `d` odd;
compute `x = a^d mod n` via `powm`; if `x ∈ {1, n − 1}` return true;
repeat `s − 1` times: `x ← x² mod n`, returning true if `x = n − 1`;
otherwise return false.  The squaring pass is this fueled loop. -/
def sprpSquaresF : ℕ → ℕ → ℕ → Bool
  | 0, _, _ => false
  | k + 1, x, n => if x * x % n = n - 1 then true else sprpSquaresF k (x * x % n) n

/-- Modelled from the spec (§4.2): the strong-probable-prime test. -/
def sprp (n a : ℕ) : Bool :=
  if powm a ((n - 1) / 2 ^ tz (n - 1)) n = 1
      ∨ powm a ((n - 1) / 2 ^ tz (n - 1)) n = n - 1 then true
  else sprpSquaresF (tz (n - 1) - 1) (powm a ((n - 1) / 2 ^ tz (n - 1)) n) n

/-- The hash constant of the Miller-Rabin table lookup
(`src/nt_funcs.rs:88`). -/
def MAGIC : ℕ := 0xAD625B89

/-- The fixed second-base table of the 64-bit branch
(`src/nt_funcs.rs:108`), indexed with `getD` (`SECOND_BASES[i]` panics
rather than defaulting, but the code only ever builds indices below 2). -/
def SECOND_BASES : List ℕ := [15, 135, 13, 60, 15, 117, 65, 29]

/-- The hash index of the 64-bit branch of `is_prime64`
(`src/nt_funcs.rs:98-99`): `(low32(T) * MAGIC mod 2^32) >> 18`, a 14-bit
value. -/
def idx14 (target : ℕ) : ℕ := target % 2 ^ 32 * MAGIC % 2 ^ 32 / 2 ^ 18

/-- Model of `is_prime64` with the big-table feature
(`src/nt_funcs.rs:73-111`), parameterized by the Miller-Rabin witness
tables `MILLER_RABIN_BASE32` and `MILLER_RABIN_BASE64` of `tables.rs`,
which are not under `src/` (the spec fixes their sizes and indexing but
not their entries).  `binary_search` on the sorted table is modelled as
membership. -/
def is_prime64 (mr32 mr64 : ℕ → ℕ) (target : ℕ) : Bool :=
  if target < 1 then false
  else if target % 2 = 0 then decide (target = 2)
  else if target < 8167 then smallPrimes.contains target
  else if target < 2 ^ 32 then
    sprp target (mr32 (target * MAGIC % 2 ^ 32 / 2 ^ 24))
  else if ¬ sprp target 2 = true then false
  else if ¬ sprp target (mr64 (idx14 target)) = true then false
  else if target < 2 ^ 49 then true
  else sprp target (SECOND_BASES.getD (idx14 target / 2 ^ 13) 0)

/-! ### Claim C2: the 64-bit dispatch of `is_prime64` -/

theorem idx14_lt (target : ℕ) : idx14 target < 2 ^ 14 := by
  rw [idx14]
  have h : target % 2 ^ 32 * MAGIC % 2 ^ 32 < 2 ^ 32 := Nat.mod_lt _ (by norm_num)
  omega

/-- C2 (amended).  For every odd `T` with `2^32 ≤ T < 2^64`, `is_prime64`
follows exactly: fail unless SPRP base 2; fail unless SPRP with witness
`MR64[idx14]` where `idx14 = (low32(T) · MAGIC mod 2^32) >> 18`; succeed
if `T < 2^49`; otherwise return the SPRP result with witness
`SECOND_BASES[idx14 >> 13]`.  However `idx14 >> 13` is the top *single*
bit of the 14-bit `idx14`, not its top 3 bits: it only takes the values
0 and 1, so only `SECOND_BASES[0] = 15` and `SECOND_BASES[1] = 135` are
ever used. -/
theorem C2_is_prime64 (mr32 mr64 : ℕ → ℕ) (target : ℕ) (hodd : Odd target)
    (hlo : 2 ^ 32 ≤ target) (hhi : target < 2 ^ 64) :
    is_prime64 mr32 mr64 target =
      (sprp target 2 &&
        (sprp target (mr64 (idx14 target)) &&
          (decide (target < 2 ^ 49) ||
            sprp target (SECOND_BASES.getD (idx14 target / 2 ^ 13) 0)))) ∧
    idx14 target < 2 ^ 14 ∧ idx14 target / 2 ^ 13 ≤ 1 := by
  have h2 : target % 2 = 1 := Nat.odd_iff.mp hodd
  refine ⟨?_, idx14_lt target, by have := idx14_lt target; omega⟩
  unfold is_prime64
  rw [if_neg (by omega), if_neg (by omega), if_neg (by omega), if_neg (by omega)]
  cases hs2 : sprp target 2 with
  | false => simp
  | true =>
    cases hs64 : sprp target (mr64 (idx14 target)) with
    | false => simp
    | true =>
      by_cases h49 : target < 2 ^ 49
      · rw [if_neg (by simp : ¬¬(true = true)), if_neg (by simp : ¬¬(true = true)),
          if_pos h49, decide_eq_true h49]
        simp
      · rw [if_neg (by simp : ¬¬(true = true)), if_neg (by simp : ¬¬(true = true)),
          if_neg h49, decide_eq_false h49]
        simp

/-- Closed instance of `C2_is_prime64` at the odd input `T = 2^32 + 1`
(any witness tables). -/
theorem C2_is_prime64_witness :
    idx14 (2 ^ 32 + 1) < 2 ^ 14 ∧ idx14 (2 ^ 32 + 1) / 2 ^ 13 ≤ 1 :=
  (C2_is_prime64 (fun _ => 2) (fun _ => 2) (2 ^ 32 + 1) (by decide) (by norm_num)
    (by norm_num)).2

/-- The original claim C2 calls `idx3 = idx14 >> 13` "the top 3 bits of
idx14" able to take all 8 index values.  At the concrete odd input
`T = 2^32 + 1` (so `low32(T) = 1`), `idx14 = 11096`; the code's index is
`11096 >> 13 = 1`, but the top 3 bits of the 14-bit value are
`11096 >> 11 = 5 ≠ 1` — so the code draws the second SPRP base
`SECOND_BASES[1] = 135`, not the `SECOND_BASES[5] = 117` that the
"top 3 bits" reading would give.  No input can select entries 2 … 7,
since `idx14 >> 13 ≤ 1` (see `C2_is_prime64`). -/
theorem C2_is_prime64_counterexample :
    idx14 (2 ^ 32 + 1) = 11096 ∧
    idx14 (2 ^ 32 + 1) / 2 ^ 13 = 1 ∧
    idx14 (2 ^ 32 + 1) / 2 ^ 11 = 5 ∧
    idx14 (2 ^ 32 + 1) / 2 ^ 13 ≠ idx14 (2 ^ 32 + 1) / 2 ^ 11 ∧
    SECOND_BASES.getD (idx14 (2 ^ 32 + 1) / 2 ^ 13) 0 = 135 ∧
    SECOND_BASES.getD (idx14 (2 ^ 32 + 1) / 2 ^ 11) 0 = 117 := by decide

/-! ### Factor maps: the sorted association-list model of `BTreeMap<u64, usize>` -/

/-- `BTreeMap::insert` on the model: replace the value at an existing key,
keep keys strictly ascending. -/
def mapInsert : List (ℕ × ℕ) → ℕ → ℕ → List (ℕ × ℕ)
  | [], k, v => [(k, v)]
  | (k', v') :: rest, k, v =>
    if k < k' then (k, v) :: (k', v') :: rest
    else if k = k' then (k, v) :: rest
    else (k', v') :: mapInsert rest k v

/-- `*map.entry(k).or_insert(0) += v` on the model. -/
def mapEntryAdd : List (ℕ × ℕ) → ℕ → ℕ → List (ℕ × ℕ)
  | [], k, v => [(k, v)]
  | (k', v') :: rest, k, v =>
    if k < k' then (k, v) :: (k', v') :: rest
    else if k = k' then (k', v' + v) :: rest
    else (k', v') :: mapEntryAdd rest k v

/-- Product of `p ^ e` over the entries of a factor map. -/
def mapProd : List (ℕ × ℕ) → ℕ
  | [] => 1
  | (k, v) :: rest => k ^ v * mapProd rest

theorem mapInsert_mem : ∀ (l : List (ℕ × ℕ)) (k v : ℕ) (x : ℕ × ℕ),
    x ∈ mapInsert l k v → x = (k, v) ∨ x ∈ l := by
  intro l
  induction l with
  | nil =>
    intro k v x hx
    simp only [mapInsert, List.mem_singleton] at hx
    exact Or.inl hx
  | cons hd rest ih =>
    intro k v x hx
    obtain ⟨k', v'⟩ := hd
    unfold mapInsert at hx
    split at hx
    · rcases List.mem_cons.mp hx with h | h
      · exact Or.inl h
      · exact Or.inr h
    · split at hx
      · rcases List.mem_cons.mp hx with h | h
        · exact Or.inl h
        · exact Or.inr (List.mem_cons_of_mem _ h)
      · rcases List.mem_cons.mp hx with h | h
        · exact Or.inr (List.mem_cons.mpr (Or.inl h))
        · rcases ih k v x h with h' | h'
          · exact Or.inl h'
          · exact Or.inr (List.mem_cons_of_mem _ h')

theorem mapEntryAdd_mem : ∀ (l : List (ℕ × ℕ)) (k v : ℕ) (x : ℕ × ℕ),
    x ∈ mapEntryAdd l k v → x.1 = k ∨ x ∈ l := by
  intro l
  induction l with
  | nil =>
    intro k v x hx
    simp only [mapEntryAdd, List.mem_singleton] at hx
    exact Or.inl (by rw [hx])
  | cons hd rest ih =>
    intro k v x hx
    obtain ⟨k', v'⟩ := hd
    unfold mapEntryAdd at hx
    split at hx
    · rcases List.mem_cons.mp hx with h | h
      · exact Or.inl (by rw [h])
      · exact Or.inr h
    · rename_i hlt
      split at hx
      · rename_i heq
        rcases List.mem_cons.mp hx with h | h
        · exact Or.inl (by rw [h]; exact heq.symm)
        · exact Or.inr (List.mem_cons_of_mem _ h)
      · rcases List.mem_cons.mp hx with h | h
        · exact Or.inr (List.mem_cons.mpr (Or.inl h))
        · rcases ih k v x h with h' | h'
          · exact Or.inl h'
          · exact Or.inr (List.mem_cons_of_mem _ h')

theorem mapInsert_pairwise : ∀ (l : List (ℕ × ℕ)) (k v : ℕ),
    l.Pairwise (fun x y => x.1 < y.1) →
    (mapInsert l k v).Pairwise (fun x y => x.1 < y.1) := by
  intro l
  induction l with
  | nil =>
    intro k v _
    simp [mapInsert]
  | cons hd rest ih =>
    intro k v hpw
    obtain ⟨k', v'⟩ := hd
    obtain ⟨hhd, hrest⟩ := List.pairwise_cons.mp hpw
    unfold mapInsert
    split
    · rename_i hklt
      refine List.pairwise_cons.mpr ⟨?_, hpw⟩
      intro x hx
      rcases List.mem_cons.mp hx with h | h
      · rw [h]; exact hklt
      · exact lt_trans hklt (hhd x h)
    · split
      · rename_i heq
        refine List.pairwise_cons.mpr ⟨?_, hrest⟩
        intro x hx
        rw [heq]
        exact hhd x hx
      · rename_i hklt heq
        refine List.pairwise_cons.mpr ⟨?_, ih k v hrest⟩
        intro x hx
        rcases mapInsert_mem rest k v x hx with h | h
        · rw [h]; dsimp; omega
        · exact hhd x h

theorem mapEntryAdd_pairwise : ∀ (l : List (ℕ × ℕ)) (k v : ℕ),
    l.Pairwise (fun x y => x.1 < y.1) →
    (mapEntryAdd l k v).Pairwise (fun x y => x.1 < y.1) := by
  intro l
  induction l with
  | nil =>
    intro k v _
    simp [mapEntryAdd]
  | cons hd rest ih =>
    intro k v hpw
    obtain ⟨k', v'⟩ := hd
    obtain ⟨hhd, hrest⟩ := List.pairwise_cons.mp hpw
    unfold mapEntryAdd
    split
    · rename_i hklt
      refine List.pairwise_cons.mpr ⟨?_, hpw⟩
      intro x hx
      rcases List.mem_cons.mp hx with h | h
      · rw [h]; exact hklt
      · exact lt_trans hklt (hhd x h)
    · split
      · exact List.pairwise_cons.mpr ⟨fun x hx => hhd x hx, hrest⟩
      · rename_i hklt heq
        refine List.pairwise_cons.mpr ⟨?_, ih k v hrest⟩
        intro x hx
        rcases mapEntryAdd_mem rest k v x hx with h | h
        · rw [h]; omega
        · exact hhd x h

theorem mapInsert_prod : ∀ (l : List (ℕ × ℕ)) (k v : ℕ),
    k ∉ l.map Prod.fst → mapProd (mapInsert l k v) = k ^ v * mapProd l := by
  intro l
  induction l with
  | nil => intro k v _; rfl
  | cons hd rest ih =>
    intro k v hk
    obtain ⟨k', v'⟩ := hd
    simp only [List.map_cons, List.mem_cons] at hk
    push_neg at hk
    unfold mapInsert
    split
    · rfl
    · split
      · rename_i heq
        exact absurd heq hk.1
      · show mapProd ((k', v') :: mapInsert rest k v) = k ^ v * mapProd ((k', v') :: rest)
        unfold mapProd
        rw [ih k v hk.2]
        ring

theorem mapEntryAdd_prod : ∀ (l : List (ℕ × ℕ)) (k v : ℕ),
    mapProd (mapEntryAdd l k v) = k ^ v * mapProd l := by
  intro l
  induction l with
  | nil => intro k v; rfl
  | cons hd rest ih =>
    intro k v
    obtain ⟨k', v'⟩ := hd
    unfold mapEntryAdd
    split
    · rfl
    · split
      · rename_i heq
        show mapProd ((k', v' + v) :: rest) = k ^ v * mapProd ((k', v') :: rest)
        unfold mapProd
        rw [heq, pow_add]
        ring
      · show mapProd ((k', v') :: mapEntryAdd rest k v) = k ^ v * mapProd ((k', v') :: rest)
        unfold mapProd
        rw [ih k v]
        ring

theorem mapProd_pos : ∀ l : List (ℕ × ℕ), (∀ x ∈ l, x.1.Prime) → 1 ≤ mapProd l := by
  intro l
  induction l with
  | nil => intro _; exact le_refl 1
  | cons hd rest ih =>
    intro h
    obtain ⟨k, v⟩ := hd
    have hk : k.Prime := h (k, v) (List.mem_cons_self _ _)
    have h1 : 1 ≤ k ^ v := Nat.one_le_pow _ _ hk.pos
    have h2 : 1 ≤ mapProd rest := ih fun x hx => h x (List.mem_cons_of_mem _ hx)
    calc 1 = 1 * 1 := rfl
      _ ≤ k ^ v * mapProd rest := Nat.mul_le_mul h1 h2
      _ = mapProd ((k, v) :: rest) := rfl

/-! ### Granlund-Möller divisibility: the precomputed inverse tables -/

/-- Modelled from the spec: `SMALL_PRIMES_INV` of `tables.rs` (not under
`src/`) carries, for each table prime `p`, the inverse of `p` mod `2^64`
(spec §6); realised computably through `invm`. -/
def pinv64 (p : ℕ) : ℕ := (invm p (2 ^ 64)).getD 0

/-- Modelled from the spec: `SMALL_PRIMES_INVLIM` of `tables.rs` carries
`⌊(2^64 − 1)/p⌋` (spec §6). -/
def plim64 (p : ℕ) : ℕ := (2 ^ 64 - 1) / p

theorem pinv64_spec (p : ℕ) (hodd : p % 2 = 1) :
    p * pinv64 p % 2 ^ 64 = 1 % 2 ^ 64 := by
  have hg : Nat.gcd p (2 ^ 64) = 1 := by
    have hcop : Nat.Coprime p 2 :=
      Nat.coprime_comm.mp ((Nat.prime_two.coprime_iff_not_dvd).mpr
        (by intro h2; omega))
    exact hcop.pow_right 64
  obtain ⟨hgcd, hcong⟩ := invm_loop_result p (2 ^ 64) (by norm_num)
  have hnone : ¬ 1 < (invmLoopF (2 ^ 64) (2 ^ 64) (2 ^ 64)
      (if 2 ^ 64 ≤ p then p % 2 ^ 64 else p) 0 1).1 := by
    rw [hgcd, hg]
    omega
  have hval : pinv64 p = (invmLoopF (2 ^ 64) (2 ^ 64) (2 ^ 64)
      (if 2 ^ 64 ≤ p then p % 2 ^ 64 else p) 0 1).2 := by
    unfold pinv64 invm
    rw [if_neg hnone]
    rfl
  rw [hgcd, hg] at hcong
  rw [hval]
  set x := (invmLoopF (2 ^ 64) (2 ^ 64) (2 ^ 64)
      (if 2 ^ 64 ≤ p then p % 2 ^ 64 else p) 0 1).2 with hxdef
  have hc2 : ((p * x : ℕ) : ℤ) = (x : ℤ) * (p : ℤ) := by push_cast; ring
  have hmod : ((p * x : ℕ) : ℤ) ≡ ((1 : ℕ) : ℤ) [ZMOD ((2 ^ 64 : ℕ) : ℤ)] := by
    rw [hc2]
    exact hcong
  exact Int.natCast_modEq_iff.mp hmod

/-- The Granlund-Möller divisibility step (spec §4.3): with
`pinv = p⁻¹ mod 2^64` and `plim = ⌊(2^64−1)/p⌋`, for `r < 2^64` the
wrapped product `r · pinv mod 2^64` is at most `plim` exactly when
`p ∣ r`, and in that case it equals `r / p`. -/
theorem gm_step (p r : ℕ) (hp : 2 ≤ p) (hodd : p % 2 = 1) (hr : r < 2 ^ 64) :
    (r * pinv64 p % 2 ^ 64 ≤ plim64 p ↔ p ∣ r) ∧
    (p ∣ r → r * pinv64 p % 2 ^ 64 = r / p) := by
  have hpinv := pinv64_spec p hodd
  have h1 : (1 : ℕ) % 2 ^ 64 = 1 := Nat.mod_eq_of_lt (by norm_num)
  have hvalue : p ∣ r → r * pinv64 p % 2 ^ 64 = r / p := by
    rintro ⟨s, rfl⟩
    have hs : s = p * s / p := (Nat.mul_div_cancel_left s (by omega)).symm
    have hcong : p * s * pinv64 p ≡ s [MOD 2 ^ 64] := by
      calc p * s * pinv64 p = s * (p * pinv64 p) := by ring
        _ ≡ s * 1 [MOD 2 ^ 64] :=
          Nat.ModEq.mul_left s (show p * pinv64 p ≡ 1 [MOD 2 ^ 64] from hpinv.trans h1)
        _ = s := by ring
    have hslt : s < 2 ^ 64 := by
      have : s ≤ p * s := Nat.le_mul_of_pos_left s (by omega)
      omega
    rw [hcong, Nat.mod_eq_of_lt hslt]
    omega
  refine ⟨⟨?_, ?_⟩, hvalue⟩
  · intro hle
    by_contra hdvd
    have hble : p * (r * pinv64 p % 2 ^ 64) ≤ p * plim64 p := Nat.mul_le_mul_left p hle
    have hplim : p * plim64 p ≤ 2 ^ 64 - 1 := by
      rw [plim64, mul_comm]
      exact Nat.div_mul_le_self _ p
    have hcong : p * (r * pinv64 p % 2 ^ 64) ≡ r [MOD 2 ^ 64] := by
      calc p * (r * pinv64 p % 2 ^ 64)
          ≡ p * (r * pinv64 p) [MOD 2 ^ 64] :=
            Nat.ModEq.mul_left p (Nat.mod_modEq _ _)
        _ = r * (p * pinv64 p) := by ring
        _ ≡ r * 1 [MOD 2 ^ 64] :=
          Nat.ModEq.mul_left r (show p * pinv64 p ≡ 1 [MOD 2 ^ 64] from hpinv.trans h1)
        _ = r := by ring
    have heq : p * (r * pinv64 p % 2 ^ 64) = r := by
      have := hcong
      unfold Nat.ModEq at this
      rw [Nat.mod_eq_of_lt (by omega), Nat.mod_eq_of_lt hr] at this
      exact this
    exact hdvd ⟨r * pinv64 p % 2 ^ 64, heq.symm⟩
  · intro hdvd
    rw [hvalue hdvd, plim64]
    exact Nat.div_le_div_right (by omega)

/-- Fueled model of the Granlund-Möller stripping loop inside the
big-table trial division (`src/nt_funcs.rs:176-187`): repeatedly replace
`r` by `r · pinv mod 2^64` while that stays at most `plim`, counting the
divisions; returns the count `k`. -/
def gmLoopF : ℕ → ℕ → ℕ → ℕ → ℕ → ℕ
  | 0, _, _, _, k => k
  | f + 1, r, pinv, plim, k =>
    if r * pinv % 2 ^ 64 ≤ plim then gmLoopF f (r * pinv % 2 ^ 64) pinv plim (k + 1)
    else k

theorem gmLoopF_spec (p : ℕ) (hp : 3 ≤ p) (hodd : p % 2 = 1) :
    ∀ f r k, 1 ≤ r → r < 2 ^ 64 → r < p ^ f →
    ∃ d, gmLoopF f r (pinv64 p) (plim64 p) k = k + d ∧
      p ^ d ∣ r ∧ ¬ p ∣ r / p ^ d := by
  intro f
  induction f with
  | zero =>
    intro r k h1 _ hpf
    rw [pow_zero] at hpf
    omega
  | succ f ih =>
    intro r k h1 h64 hpf
    obtain ⟨hiff, hval⟩ := gm_step p r (by omega) hodd h64
    by_cases hdvd : p ∣ r
    · have hcond : r * pinv64 p % 2 ^ 64 ≤ plim64 p := hiff.mpr hdvd
      have hunf : gmLoopF (f + 1) r (pinv64 p) (plim64 p) k
          = gmLoopF f (r * pinv64 p % 2 ^ 64) (pinv64 p) (plim64 p) (k + 1) := by
        conv_lhs => rw [gmLoopF]
        rw [if_pos hcond]
      have hveq : r * pinv64 p % 2 ^ 64 = r / p := hval hdvd
      have hple : p ≤ r := Nat.le_of_dvd (by omega) hdvd
      have hr1 : 1 ≤ r / p := Nat.one_le_div_iff (by omega) |>.mpr hple
      have hr64 : r / p < 2 ^ 64 := lt_of_le_of_lt (Nat.div_le_self r p) h64
      have hrf : r / p < p ^ f := by
        rw [Nat.div_lt_iff_lt_mul (by omega : 0 < p)]
        rw [pow_succ] at hpf
        exact hpf
      obtain ⟨d, hd1, hd2, hd3⟩ := ih (r / p) (k + 1) hr1 hr64 hrf
      refine ⟨d + 1, ?_, ?_, ?_⟩
      · rw [hunf, hveq, hd1]
        omega
      · have hdd : p * p ^ d ∣ r := (Nat.dvd_div_iff hdvd).mp hd2
        rw [pow_succ, mul_comm]
        exact hdd
      · rw [pow_succ, mul_comm (p ^ d) p, ← Nat.div_div_eq_div_mul]
        exact hd3
    · have hcond : ¬ r * pinv64 p % 2 ^ 64 ≤ plim64 p := fun h => hdvd (hiff.mp h)
      have hunf : gmLoopF (f + 1) r (pinv64 p) (plim64 p) k = k := by
        conv_lhs => rw [gmLoopF]
        rw [if_neg hcond]
      refine ⟨0, by rw [hunf]; omega, by simp, ?_⟩
      rw [pow_zero, Nat.div_one]
      exact hdvd

/-! ### `factors64`: trial division, work stack, and assembly -/

/-- Model of the big-table trial-division loop of `factors64`
(`src/nt_funcs.rs:163-196`), structural on the prime table (2 skipped by
the caller): stop with `factored = true` when the prime exceeds
`√target + 1` or the residual reaches 1; otherwise strip the prime with
the Granlund-Möller loop, record its exponent, and continue.  Returns
`(factored, residual, result)`. -/
def trialLoopF (tsqrt : ℕ) : List ℕ → ℕ → List (ℕ × ℕ) → Bool × ℕ × List (ℕ × ℕ)
  | [], residual, result => (false, residual, result)
  | p :: ps, residual, result =>
    if tsqrt < p then (true, residual, result)
    else if residual / p ^ gmLoopF 64 residual (pinv64 p) (plim64 p) 0 = 1 then
      (true, residual / p ^ gmLoopF 64 residual (pinv64 p) (plim64 p) 0,
        if 0 < gmLoopF 64 residual (pinv64 p) (plim64 p) 0 then
          mapInsert result p (gmLoopF 64 residual (pinv64 p) (plim64 p) 0)
        else result)
    else
      trialLoopF tsqrt ps (residual / p ^ gmLoopF 64 residual (pinv64 p) (plim64 p) 0)
        (if 0 < gmLoopF 64 residual (pinv64 p) (plim64 p) 0 then
          mapInsert result p (gmLoopF 64 residual (pinv64 p) (plim64 p) 0)
        else result)

/-- Invariant carried out of the trial-division loop: the recorded map and
residual still multiply to the target, the residual is positive, the map is
sorted with prime keys, and on the `factored` exit the residual is 1 or a
prime exceeding every recorded key. -/
def TrialInv (T : ℕ) (out : Bool × ℕ × List (ℕ × ℕ)) : Prop :=
  mapProd out.2.2 * out.2.1 = T ∧ 1 ≤ out.2.1 ∧
  out.2.2.Pairwise (fun x y => x.1 < y.1) ∧ (∀ x ∈ out.2.2, x.1.Prime) ∧
  (out.1 = true → out.2.1 = 1 ∨
    (out.2.1.Prime ∧ ∀ x ∈ out.2.2, x.1 < out.2.1))

theorem trialLoopF_spec (T : ℕ) (hT64 : T < 2 ^ 64) :
    ∀ ps residual result,
    (∀ p ∈ ps, p.Prime ∧ 3 ≤ p ∧ p < 8168 ∧ p % 2 = 1) →
    ps.Pairwise (· < ·) →
    1 ≤ residual → residual % 2 = 1 →
    (∀ q, q.Prime → q ∣ residual → q ∈ ps ∨ 8168 ≤ q) →
    mapProd result * residual = T →
    result.Pairwise (fun x y => x.1 < y.1) →
    (∀ x ∈ result, x.1.Prime) →
    (∀ x ∈ result, ∀ p ∈ ps, x.1 < p) →
    (∀ x ∈ result, x.1 < 8168) →
    TrialInv T (trialLoopF (Nat.sqrt T + 1) ps residual result) := by
  intro ps
  induction ps with
  | nil =>
    intro residual result hmem hsort hr1 hrodd hdivs hprod hpw hkp hklt hk8
    exact ⟨hprod, hr1, hpw, hkp, fun h => absurd h Bool.false_ne_true⟩
  | cons p ps ih =>
    intro residual result hmem hsort hr1 hrodd hdivs hprod hpw hkp hklt hk8
    obtain ⟨hpprime, hp3, hp8, hpodd⟩ := hmem p (List.mem_cons_self p ps)
    have hresT : residual ≤ T := by
      have h1 : 1 ≤ mapProd result := mapProd_pos result hkp
      calc residual = 1 * residual := (Nat.one_mul residual).symm
        _ ≤ mapProd result * residual := Nat.mul_le_mul_right residual h1
        _ = T := hprod
    have hres64 : residual < 2 ^ 64 := lt_of_le_of_lt hresT hT64
    by_cases hts : Nat.sqrt T + 1 < p
    · have hunf : trialLoopF (Nat.sqrt T + 1) (p :: ps) residual result
          = (true, residual, result) := by
        conv_lhs => rw [trialLoopF]
        rw [if_pos hts]
      rw [hunf]
      simp only [TrialInv]
      refine ⟨hprod, hr1, hpw, hkp, fun _ => ?_⟩
      by_cases hone : residual = 1
      · exact Or.inl hone
      · right
        have hres2 : 2 ≤ residual := by omega
        have hqprime : residual.minFac.Prime := Nat.minFac_prime hone
        have hqdvd : residual.minFac ∣ residual := Nat.minFac_dvd residual
        have hqbig : Nat.sqrt T < residual.minFac := by
          rcases hdivs residual.minFac hqprime hqdvd with hmem' | hbig
          · rcases List.mem_cons.mp hmem' with h | h
            · omega
            · have : p < residual.minFac := (List.pairwise_cons.mp hsort).1 _ h
              omega
          · omega
        have hrp : residual.Prime := by
          by_contra hc
          have hsq := Nat.minFac_sq_le_self (by omega : 0 < residual) hc
          have : residual.minFac ≤ Nat.sqrt T := by
            rw [Nat.le_sqrt]
            calc residual.minFac * residual.minFac = residual.minFac ^ 2 := (sq _).symm
              _ ≤ residual := hsq
              _ ≤ T := hresT
          omega
        refine ⟨hrp, fun x hx => ?_⟩
        have hxp : x.1 < p := hklt x hx p (List.mem_cons_self p ps)
        have hx8 : x.1 < 8168 := hk8 x hx
        have hqres : residual.minFac ≤ residual := Nat.le_of_dvd (by omega) hqdvd
        rcases hdivs residual.minFac hqprime hqdvd with hmem' | hbig
        · rcases List.mem_cons.mp hmem' with h | h
          · omega
          · have : p < residual.minFac := (List.pairwise_cons.mp hsort).1 _ h
            omega
        · omega
    · obtain ⟨d, hd1, hd2, hd3⟩ := gmLoopF_spec p hp3 hpodd 64 residual 0 hr1 hres64
        (lt_of_lt_of_le hres64 (Nat.pow_le_pow_left (by omega) 64))
      rw [Nat.zero_add] at hd1
      have hkk := hd1
      have hpknotkey : p ∉ result.map Prod.fst := by
        intro hmemp
        obtain ⟨x, hx, hxeq⟩ := List.mem_map.mp hmemp
        have := hklt x hx p (List.mem_cons_self p ps)
        omega
      have hprod' : mapProd (if 0 < gmLoopF 64 residual (pinv64 p) (plim64 p) 0 then
            mapInsert result p (gmLoopF 64 residual (pinv64 p) (plim64 p) 0)
          else result) * (residual / p ^ gmLoopF 64 residual (pinv64 p) (plim64 p) 0)
          = T := by
        rw [hkk]
        by_cases h0 : 0 < d
        · rw [if_pos h0, mapInsert_prod result p d hpknotkey]
          calc p ^ d * mapProd result * (residual / p ^ d)
              = mapProd result * (p ^ d * (residual / p ^ d)) := by ring
            _ = mapProd result * residual := by rw [Nat.mul_div_cancel' hd2]
            _ = T := hprod
        · have hd0 : d = 0 := by omega
          rw [if_neg h0, hd0, pow_zero, Nat.div_one]
          exact hprod
      have hr1' : 1 ≤ residual / p ^ gmLoopF 64 residual (pinv64 p) (plim64 p) 0 := by
        rw [hkk]
        exact Nat.div_pos (Nat.le_of_dvd (by omega) hd2) (Nat.pos_pow_of_pos d (by omega))
      have hpw' : (if 0 < gmLoopF 64 residual (pinv64 p) (plim64 p) 0 then
            mapInsert result p (gmLoopF 64 residual (pinv64 p) (plim64 p) 0)
          else result).Pairwise (fun x y => x.1 < y.1) := by
        split
        · exact mapInsert_pairwise result p _ hpw
        · exact hpw
      have hkp' : ∀ x ∈ (if 0 < gmLoopF 64 residual (pinv64 p) (plim64 p) 0 then
            mapInsert result p (gmLoopF 64 residual (pinv64 p) (plim64 p) 0)
          else result), x.1.Prime := by
        split
        · intro x hx
          rcases mapInsert_mem result p _ x hx with h | h
          · rw [h]; exact hpprime
          · exact hkp x h
        · exact hkp
      have hunf : trialLoopF (Nat.sqrt T + 1) (p :: ps) residual result
          = if residual / p ^ gmLoopF 64 residual (pinv64 p) (plim64 p) 0 = 1 then
              (true, residual / p ^ gmLoopF 64 residual (pinv64 p) (plim64 p) 0,
                if 0 < gmLoopF 64 residual (pinv64 p) (plim64 p) 0 then
                  mapInsert result p (gmLoopF 64 residual (pinv64 p) (plim64 p) 0)
                else result)
            else
              trialLoopF (Nat.sqrt T + 1) ps
                (residual / p ^ gmLoopF 64 residual (pinv64 p) (plim64 p) 0)
                (if 0 < gmLoopF 64 residual (pinv64 p) (plim64 p) 0 then
                  mapInsert result p (gmLoopF 64 residual (pinv64 p) (plim64 p) 0)
                else result) := by
        conv_lhs => rw [trialLoopF]
        rw [if_neg hts]
      rw [hunf]
      by_cases hone : residual / p ^ gmLoopF 64 residual (pinv64 p) (plim64 p) 0 = 1
      · rw [if_pos hone]
        simp only [TrialInv]
        exact ⟨hprod', hr1', hpw', hkp', fun _ => Or.inl hone⟩
      · rw [if_neg hone]
        apply ih
        · intro q hq
          exact hmem q (List.mem_cons_of_mem p hq)
        · exact (List.pairwise_cons.mp hsort).2
        · exact hr1'
        · rw [hkk]
          rcases Nat.mod_two_eq_zero_or_one (residual / p ^ d) with h | h
          · exfalso
            have h2 : (2 : ℕ) ∣ residual / p ^ d := Nat.dvd_of_mod_eq_zero h
            have hrd : residual / p ^ d ∣ residual := Nat.div_dvd_of_dvd hd2
            have : (2 : ℕ) ∣ residual := dvd_trans h2 hrd
            obtain ⟨c, hc⟩ := this
            omega
          · exact h
        · intro q hq hqd
          rw [hkk] at hqd
          have hrd : residual / p ^ d ∣ residual := Nat.div_dvd_of_dvd hd2
          have hqres : q ∣ residual := dvd_trans hqd hrd
          rcases hdivs q hq hqres with hmem' | hbig
          · rcases List.mem_cons.mp hmem' with h | h
            · exfalso
              rw [h] at hqd
              exact hd3 hqd
            · exact Or.inl h
          · exact Or.inr hbig
        · exact hprod'
        · exact hpw'
        · exact hkp'
        · intro x hx p' hp'
          have hpp' : p < p' := (List.pairwise_cons.mp hsort).1 p' hp'
          rcases (by
            by_cases h0 : 0 < gmLoopF 64 residual (pinv64 p) (plim64 p) 0
            · rw [if_pos h0] at hx
              exact mapInsert_mem result p _ x hx
            · rw [if_neg h0] at hx
              exact Or.inr hx :
            x = (p, gmLoopF 64 residual (pinv64 p) (plim64 p) 0) ∨ x ∈ result) with h | h
          · rw [h]; exact hpp'
          · have := hklt x h p (List.mem_cons_self p ps)
            omega
        · intro x hx
          rcases (by
            by_cases h0 : 0 < gmLoopF 64 residual (pinv64 p) (plim64 p) 0
            · rw [if_pos h0] at hx
              exact mapInsert_mem result p _ x hx
            · rw [if_neg h0] at hx
              exact Or.inr hx :
            x = (p, gmLoopF 64 residual (pinv64 p) (plim64 p) 0) ∨ x ∈ result) with h | h
          · rw [h]; exact hp8
          · exact hk8 x h

/-- Fueled model of the work-stack loop of `factors64`
(`src/nt_funcs.rs:225-249`): pop `t`; a prime `t` is recorded with
multiplicity 1, a composite `t` is split by the divisor-search oracle and
both parts are pushed back (pop takes the top, so `t / d` is popped next).
The inner retry loop over Pollard rho and SQUFOF is modelled by `findDiv`
(see `C1_factors64`); `none` from the oracle, like fuel exhaustion, makes
the whole run return `none`. -/
def stackLoopF (ip : ℕ → Bool) (findDiv : ℕ → Option ℕ) :
    ℕ → List ℕ → List (ℕ × ℕ) → Option (List (ℕ × ℕ))
  | 0, _, _ => none
  | _ + 1, [], result => some result
  | f + 1, t :: todo, result =>
    if ip t = true then stackLoopF ip findDiv f todo (mapEntryAdd result t 1)
    else
      match findDiv t with
      | none => none
      | some d => stackLoopF ip findDiv f (t / d :: d :: todo) result

theorem stackLoopF_spec (T : ℕ) (ip : ℕ → Bool) (findDiv : ℕ → Option ℕ)
    (hip : ∀ n, ip n = true ↔ n.Prime)
    (hfd : ∀ n d, findDiv n = some d → 1 < d ∧ d < n ∧ d ∣ n) :
    ∀ f todo result M,
    mapProd result * todo.prod = T →
    result.Pairwise (fun x y => x.1 < y.1) →
    (∀ x ∈ result, x.1.Prime) →
    stackLoopF ip findDiv f todo result = some M →
    mapProd M = T ∧ M.Pairwise (fun x y => x.1 < y.1) ∧ ∀ x ∈ M, x.1.Prime := by
  intro f
  induction f with
  | zero =>
    intro todo result M _ _ _ hrun
    exact absurd hrun (by simp [stackLoopF])
  | succ f ih =>
    intro todo result M hprod hpw hkp hrun
    cases todo with
    | nil =>
      have hM : result = M := by
        have : some result = some M := hrun
        injection this
      subst hM
      rw [List.prod_nil, Nat.mul_one] at hprod
      exact ⟨hprod, hpw, hkp⟩
    | cons t todo =>
      by_cases hipt : ip t = true
      · have hunf : stackLoopF ip findDiv (f + 1) (t :: todo) result
            = stackLoopF ip findDiv f todo (mapEntryAdd result t 1) := by
          conv_lhs => rw [stackLoopF]
          rw [if_pos hipt]
        rw [hunf] at hrun
        apply ih todo (mapEntryAdd result t 1) M _ _ _ hrun
        · rw [List.prod_cons] at hprod
          rw [mapEntryAdd_prod]
          calc t ^ 1 * mapProd result * todo.prod
              = mapProd result * (t * todo.prod) := by ring
            _ = T := hprod
        · exact mapEntryAdd_pairwise result t 1 hpw
        · intro x hx
          rcases mapEntryAdd_mem result t 1 x hx with h | h
          · rw [h]; exact (hip t).mp hipt
          · exact hkp x h
      · have hunf : stackLoopF ip findDiv (f + 1) (t :: todo) result
            = match findDiv t with
              | none => none
              | some d => stackLoopF ip findDiv f (t / d :: d :: todo) result := by
          conv_lhs => rw [stackLoopF]
          rw [if_neg hipt]
        rw [hunf] at hrun
        cases hdt : findDiv t with
        | none => rw [hdt] at hrun; exact absurd hrun (by simp)
        | some d =>
          rw [hdt] at hrun
          obtain ⟨hd1, hd2, hd3⟩ := hfd t d hdt
          apply ih (t / d :: d :: todo) result M _ hpw hkp hrun
          rw [List.prod_cons, List.prod_cons,
            show t / d * (d * todo.prod) = t / d * d * todo.prod by ring,
            Nat.div_mul_cancel hd3, ← List.prod_cons]
          exact hprod

/-- Model of `factors64` (`src/nt_funcs.rs:118-251`, big-table build),
parameterized by the `is_prime64` predicate (`ip`; its witness tables are
not under `src/`, see `is_prime64`) and by a divisor-search oracle
(`findDiv`) standing for the retry loop over `pollard_rho` and `squfof`
(`factor.rs`, also not under `src/`; spec §4.3: they "return a
non-trivial divisor of n or ⊥", the caller retrying until success).
Shortcut for odd primes; strip factors of 2; trial-divide by the table
primes; finish directly when `factored`, else run the work stack. -/
def factors64 (ip : ℕ → Bool) (findDiv : ℕ → Option ℕ) (fuel target : ℕ) :
    Option (List (ℕ × ℕ)) :=
  if tz target = 0 ∧ ip target = true then some (mapInsert [] target 1)
  else
    match trialLoopF (sqrtN target + 1) smallPrimes.tail (target / 2 ^ tz target)
        (if tz target = 0 then [] else mapInsert [] 2 (tz target)) with
    | (true, residual, result) =>
      some (if residual ≠ 1 then mapInsert result residual 1 else result)
    | (false, residual, result) => stackLoopF ip findDiv fuel [residual] result

/-! ### Claim C1: the `factors64` guarantees -/

/-- C1 (confirmed against the spec contracts for the parts outside
`src/`).  For every `1 ≤ T < 2^64`: whenever the primality predicate
satisfies the spec guarantee "`is_prime64(n)` agrees with ground truth
for all n < 2^64" (§8; its Miller-Rabin tables are not under `src/`) and
the divisor search satisfies the rho/SQUFOF contract "returns a
non-trivial divisor of n or ⊥" (§4.3; `factor.rs` is not under `src/`),
every terminating run of `factors64` returns a map in which every key
passes the primality test, the product of `p ^ e` over the entries is `T`
(the empty product 1 for `T = 1`), and iteration yields the keys in
strictly ascending order. -/
theorem C1_factors64 (ip : ℕ → Bool) (findDiv : ℕ → Option ℕ) (fuel T : ℕ)
    (M : List (ℕ × ℕ)) (hT : 1 ≤ T) (hT64 : T < 2 ^ 64)
    (hip : ∀ n, ip n = true ↔ n.Prime)
    (hfd : ∀ n d, findDiv n = some d → 1 < d ∧ d < n ∧ d ∣ n)
    (hrun : factors64 ip findDiv fuel T = some M) :
    (∀ x ∈ M, ip x.1 = true) ∧ mapProd M = T ∧ M.Chain' (fun x y => x.1 < y.1) := by
  unfold factors64 at hrun
  rw [sqrtN_eq] at hrun
  by_cases h0 : tz T = 0 ∧ ip T = true
  · rw [if_pos h0] at hrun
    have hM : mapInsert [] T 1 = M := by injection hrun
    subst hM
    refine ⟨?_, ?_, ?_⟩
    · intro x hx
      rcases mapInsert_mem [] T 1 x hx with h | h
      · rw [h]; exact h0.2
      · exact absurd h (List.not_mem_nil x)
    · show T ^ 1 * 1 = T
      rw [pow_one, Nat.mul_one]
    · exact List.chain'_singleton _
  · rw [if_neg h0] at hrun
    have hr0pos : 1 ≤ T / 2 ^ tz T :=
      Nat.div_pos (Nat.le_of_dvd (by omega) (tz_dvd T)) (Nat.pos_pow_of_pos _ (by omega))
    have hr0odd : (T / 2 ^ tz T) % 2 = 1 := (tz_spec T hT).2
    have htail_sorted : smallPrimes.tail.Pairwise (· < ·) := by
      have h := smallPrimes_pairwise
      rw [smallPrimes_head] at h
      exact (List.pairwise_cons.mp h).2
    have hdivs : ∀ q, q.Prime → q ∣ T / 2 ^ tz T →
        q ∈ smallPrimes.tail ∨ 8168 ≤ q := by
      intro q hq hqd
      have hq2 : q ≠ 2 := by
        intro h2
        rw [h2] at hqd
        obtain ⟨c, hc⟩ := hqd
        omega
      by_cases h8 : q < 8168
      · exact Or.inl (smallPrimes_tail_complete q hq h8 hq2)
      · exact Or.inr (by omega)
    have hres0 : mapProd (if tz T = 0 then [] else mapInsert [] 2 (tz T))
        * (T / 2 ^ tz T) = T := by
      by_cases hz : tz T = 0
      · rw [if_pos hz, hz]
        show 1 * (T / 2 ^ 0) = T
        rw [pow_zero, Nat.div_one, Nat.one_mul]
      · rw [if_neg hz]
        show 2 ^ tz T * 1 * (T / 2 ^ tz T) = T
        rw [Nat.mul_one, Nat.mul_div_cancel' (tz_dvd T)]
    have hres0pw : (if tz T = 0 then ([] : List (ℕ × ℕ))
        else mapInsert [] 2 (tz T)).Pairwise (fun x y => x.1 < y.1) := by
      split
      · exact List.Pairwise.nil
      · exact List.pairwise_singleton _ _
    have hres0mem : ∀ x ∈ (if tz T = 0 then ([] : List (ℕ × ℕ))
        else mapInsert [] 2 (tz T)), x = (2, tz T) := by
      split
      · intro x hx; exact absurd hx (List.not_mem_nil x)
      · intro x hx
        rw [show mapInsert [] 2 (tz T) = [(2, tz T)] from rfl] at hx
        simpa using hx
    have hres0kp : ∀ x ∈ (if tz T = 0 then ([] : List (ℕ × ℕ))
        else mapInsert [] 2 (tz T)), x.1.Prime := by
      intro x hx
      rw [hres0mem x hx]
      exact Nat.prime_two
    have hres0lt : ∀ x ∈ (if tz T = 0 then ([] : List (ℕ × ℕ))
        else mapInsert [] 2 (tz T)), ∀ p ∈ smallPrimes.tail, x.1 < p := by
      intro x hx p hp
      have h3 := (smallPrimes_tail_mem p hp).2.1
      rw [hres0mem x hx]
      show 2 < p
      omega
    have hres08 : ∀ x ∈ (if tz T = 0 then ([] : List (ℕ × ℕ))
        else mapInsert [] 2 (tz T)), x.1 < 8168 := by
      intro x hx
      rw [hres0mem x hx]
      show 2 < 8168
      omega
    have hTI := trialLoopF_spec T hT64 smallPrimes.tail (T / 2 ^ tz T)
      (if tz T = 0 then [] else mapInsert [] 2 (tz T))
      (fun p hp => smallPrimes_tail_mem p hp) htail_sorted hr0pos hr0odd hdivs
      hres0 hres0pw hres0kp hres0lt hres08
    split at hrun
    · rename_i residual result heq
      rw [heq] at hTI
      obtain ⟨h1, h2, h3, h4, h5⟩ := hTI
      have h1' : mapProd result * residual = T := h1
      have h3' : result.Pairwise (fun x y => x.1 < y.1) := h3
      have h4' : ∀ x ∈ result, x.1.Prime := h4
      have h5' : residual = 1 ∨ (residual.Prime ∧ ∀ x ∈ result, x.1 < residual) :=
        h5 rfl
      by_cases hone : residual = 1
      · rw [if_neg (by omega)] at hrun
        have hM : result = M := by injection hrun
        subst hM
        refine ⟨fun x hx => (hip x.1).mpr (h4' x hx), ?_, h3'.chain'⟩
        rw [hone, Nat.mul_one] at h1'
        exact h1'
      · rw [if_pos hone] at hrun
        have hM : mapInsert result residual 1 = M := by injection hrun
        subst hM
        obtain ⟨hrP, hklt⟩ := h5'.resolve_left hone
        have hfresh : residual ∉ result.map Prod.fst := by
          intro hmem
          obtain ⟨x, hx, hxeq⟩ := List.mem_map.mp hmem
          have := hklt x hx
          omega
        refine ⟨?_, ?_, (mapInsert_pairwise result residual 1 h3').chain'⟩
        · intro x hx
          rcases mapInsert_mem result residual 1 x hx with h | h
          · rw [h]
            exact (hip residual).mpr hrP
          · exact (hip x.1).mpr (h4' x h)
        · rw [mapInsert_prod result residual 1 hfresh, pow_one]
          calc residual * mapProd result = mapProd result * residual := by ring
            _ = T := h1'
    · rename_i residual result heq
      rw [heq] at hTI
      obtain ⟨h1, _, h3, h4, _⟩ := hTI
      have h1' : mapProd result * residual = T := h1
      have h3' : result.Pairwise (fun x y => x.1 < y.1) := h3
      have h4' : ∀ x ∈ result, x.1.Prime := h4
      obtain ⟨hP, hPW, hKP⟩ := stackLoopF_spec T ip findDiv hip hfd fuel
        [residual] result M
        (by rw [List.prod_singleton]; exact h1') h3' h4' hrun
      exact ⟨fun x hx => (hip x.1).mpr (hKP x hx), hP, hPW.chain'⟩

/-- Closed instance of `C1_factors64` at `T = 12`, with the trial-division
primality test as the (correct) primality predicate and the vacuous
divisor oracle (the run never needs it). -/
theorem C1_factors64_witness :
    (∀ x ∈ [((2 : ℕ), (2 : ℕ)), (3, 1)], isPrimeTD x.1 = true) ∧
    mapProd [((2 : ℕ), (2 : ℕ)), (3, 1)] = 12 ∧
    List.Chain' (fun x y : ℕ × ℕ => x.1 < y.1) [((2 : ℕ), (2 : ℕ)), (3, 1)] :=
  C1_factors64 isPrimeTD (fun _ => none) 1 12 [(2, 2), (3, 1)] (by decide)
    (by norm_num) (fun n => isPrimeTD_iff n) (fun n d h => Option.noConfusion h)
    (by decide)

/-! ### `next_prime` and `prev_prime` -/

/-- Modelled from the spec: `WHEEL_SIZE` of `tables.rs` (not under
`src/`), "a product of the smallest primes" fitting the code's `u8`
residue arithmetic: 2·3·5 = 30. -/
def WHEEL_SIZE : ℕ := 30

/-- Modelled from the spec: `WHEEL_NEXT[i]` is the forward offset from
residue class `i` to the next class coprime with the wheel's base
(spec §3). -/
def wheelNext (i : ℕ) : ℕ :=
  ((List.range' 1 30).find? (fun d => Nat.gcd ((i + d) % 30) 30 == 1)).getD 1

/-- Modelled from the spec: `WHEEL_PREV[i]` is the backward offset from
residue class `i` to the previous class coprime with the wheel's base. -/
def wheelPrev (i : ℕ) : ℕ :=
  ((List.range' 1 30).find? (fun d => Nat.gcd ((i + 30 - d) % 30) 30 == 1)).getD 1

theorem wheelNext_pos (i : ℕ) : 1 ≤ wheelNext i := by
  unfold wheelNext
  cases hfind : (List.range' 1 30).find? (fun d => Nat.gcd ((i + d) % 30) 30 == 1) with
  | none => simp
  | some d =>
    have hmem := List.mem_of_find?_eq_some hfind
    rw [List.mem_range'_1] at hmem
    simp only [Option.getD_some]
    omega

/-- Fueled model of the wheel walk of `next_prime`
(`src/nt_funcs.rs:572-581`): add the `WHEEL_NEXT` offset with
`checked_add` (`none` at `2^64`), advance the residue class with `addm`
mod `WHEEL_SIZE`, and stop at the first candidate accepted by the
primality test. -/
def wheelWalkNextF (isP : ℕ → Bool) : ℕ → ℕ → ℕ → Option ℕ
  | 0, _, _ => none
  | f + 1, t, i =>
    if 2 ^ 64 ≤ t + wheelNext i then none
    else if isP (t + wheelNext i) then some (t + wheelNext i)
    else wheelWalkNextF isP f (t + wheelNext i) (addm i (wheelNext i) WHEEL_SIZE)

/-- Fueled model of the wheel walk of `prev_prime`
(`src/nt_funcs.rs:607-616`): subtract the `WHEEL_PREV` offset, step the
residue class back with `subm` mod `WHEEL_SIZE`. -/
def wheelWalkPrevF (isP : ℕ → Bool) : ℕ → ℕ → ℕ → Option ℕ
  | 0, _, _ => none
  | f + 1, t, i =>
    if isP (t - wheelPrev i) then some (t - wheelPrev i)
    else wheelWalkPrevF isP f (t - wheelPrev i) (subm i (wheelPrev i) WHEEL_SIZE)

/-- Model of `next_prime` (`src/nt_funcs.rs:552-582`) at the `u64` width,
parameterized by the generic `is_prime` predicate (the buffer-based
`is_prime` of `buffer.rs` is not under `src/`).  In the small range the
sorted table is searched (`binary_search`: `Ok(pos)` yields the entry at
`pos + 1`, `Err(pos)` the entry at the insertion point `pos`; both realised
through `findIdx` on the sorted table); otherwise walk the wheel. -/
def next_prime64 (isP : ℕ → Bool) (fuel target : ℕ) : Option ℕ :=
  if target ≤ 255 ∨ target < smallPrimes.getLastD 0 then
    if smallPrimes.contains target then
      some (smallPrimes.getD (smallPrimes.findIdx (fun p => decide (target ≤ p)) + 1) 0)
    else some (smallPrimes.getD (smallPrimes.findIdx (fun p => decide (target ≤ p))) 0)
  else wheelWalkNextF isP fuel target (target % WHEEL_SIZE)

/-- Model of `prev_prime` (`src/nt_funcs.rs:586-617`) at the `u64` width:
inputs at most 2 give `none`; in the small range both `binary_search`
outcomes yield the entry at `pos - 1`; otherwise walk the wheel
backwards. -/
def prev_prime64 (isP : ℕ → Bool) (fuel target : ℕ) : Option ℕ :=
  if target ≤ 2 then none
  else if target ≤ 255 ∨ target < smallPrimes.getLastD 0 then
    some (smallPrimes.getD (smallPrimes.findIdx (fun p => decide (target ≤ p)) - 1) 0)
  else wheelWalkPrevF isP fuel target (target % WHEEL_SIZE)

theorem getLastD_lt (limit : ℕ) : ∀ (l : List ℕ) (d : ℕ), (∀ x ∈ l, x < limit) →
    d < limit → l.getLastD d < limit := by
  intro l
  induction l with
  | nil => intro d _ hd; exact hd
  | cons a l ih =>
    intro d hl hd
    rw [List.getLastD_cons]
    exact ih a (fun x hx => hl x (List.mem_cons_of_mem a hx))
      (hl a (List.mem_cons_self a l))

/-! ### Claim C9: `prev_prime` at small inputs and `next_prime` at overflow -/

/-- C9 (confirmed, spec-modelled wheel).  `prev_prime` returns `none` for
every input at most 2 (in particular at 2), and `next_prime` returns
`none` rather than failing when the wheel step past the target would
overflow the integer type, in particular at `u64::MAX = 2^64 - 1`, where
the very first `checked_add` fails. -/
theorem C9_prev_next_prime (isP : ℕ → Bool) (fuel : ℕ) :
    (∀ t, t ≤ 2 → prev_prime64 isP fuel t = none) ∧
    next_prime64 isP fuel (2 ^ 64 - 1) = none := by
  constructor
  · intro t ht
    unfold prev_prime64
    rw [if_pos ht]
  · unfold next_prime64
    have hlast : smallPrimes.getLastD 0 < 8168 :=
      getLastD_lt 8168 smallPrimes 0
        (fun x hx => ((smallPrimes_mem x).mp hx).2) (by norm_num)
    rw [if_neg (by omega)]
    cases fuel with
    | zero => rfl
    | succ f =>
      have hpos := wheelNext_pos ((2 ^ 64 - 1) % WHEEL_SIZE)
      have hunf : wheelWalkNextF isP (f + 1) (2 ^ 64 - 1) ((2 ^ 64 - 1) % WHEEL_SIZE)
          = none := by
        conv_lhs => rw [wheelWalkNextF]
        rw [if_pos (by omega)]
      exact hunf

/-- Sanity check mirroring the repository test `prev_next_test`:
from 3 the next table prime is 5. -/
theorem next_prime_test_case : next_prime64 (fun _ => false) 0 3 = some 5 := by decide

/-- Closed instance of `C9_prev_next_prime`: `prev_prime(2) = none` and
`next_prime(u64::MAX) = none`. -/
theorem C9_prev_next_prime_witness :
    prev_prime64 (fun _ => false) 5 2 = none ∧
    next_prime64 (fun _ => false) 5 (2 ^ 64 - 1) = none :=
  ⟨(C9_prev_next_prime (fun _ => false) 5).1 2 (by norm_num),
    (C9_prev_next_prime (fun _ => false) 5).2⟩
